import Mathlib

/-!
# Verification of the LocalPM (lpm) dependency discovery and reuse engine

Shallow embedding of the program in `src/` (the variant of `index.js` that
performs semver-based version resolution, shipped alongside the README).
JavaScript objects are modelled as insertion-ordered association lists,
`Map`s likewise; JavaScript string truthiness is modelled explicitly.
Filesystem state (discovered `package.json` files, their parsed contents and
which sibling `node_modules/<name>` directories exist) is passed in as data;
the outcome of each `fs.copy` call is supplied as a per-dependency error code.
-/

namespace LPM

/-- JavaScript truthiness of a possibly-undefined string: `undefined` and the
empty string are falsy, every other string is truthy. -/
def jsTruthy : Option String → Bool
  | none => false
  | some s => s ≠ ""

/-- Property write on a JavaScript object modelled as an insertion-ordered
association list: an existing key keeps its position and gets the new value,
a new key is appended at the end.  This is the semantics of both
`obj[k] = v` and of one step of object spread. -/
def jsSet {β : Type} : List (String × β) → String → β → List (String × β)
  | [], k, v => [(k, v)]
  | (k', v') :: rest, k, v =>
    if k' == k then (k', v) :: rest else (k', v') :: jsSet rest k v

/-- Property read `obj[k]` on an object modelled as an association list. -/
def lookupJs {β : Type} (m : List (String × β)) (k : String) : Option β :=
  (m.find? (fun p => p.1 == k)).map (·.2)

/-- Object spread `{...base, ...upd}`: every property of `upd` is written
onto `base` in order, so on a key collision the update (the later spread)
wins. -/
def jsObjAssign {β : Type} (base upd : List (String × β)) : List (String × β) :=
  upd.foldl (fun acc p => jsSet acc p.1 p.2) base

/-- Model of `new Map(pairs)` / repeated `Map.set`: later pairs overwrite the value of
an existing key but keep its original insertion position. -/
def jsMapFromPairs {β : Type} (l : List (String × β)) : List (String × β) :=
  l.foldl (fun acc p => jsSet acc p.1 p.2) []

/-- One parsed `package.json`: the three dependency groups, each a mapping
from package name to declared version string. -/
structure Manifest where
  dependencies : List (String × String)
  devDependencies : List (String × String)
  peerDependencies : List (String × String)
deriving DecidableEq

/-- Model of `{...packageJson.dependencies, ...packageJson.devDependencies,
...packageJson.peerDependencies}` — the merged name-to-version mapping a
manifest is matched against. -/
def mergedDeps (m : Manifest) : List (String × String) :=
  jsObjAssign (jsObjAssign (jsObjAssign [] m.dependencies) m.devDependencies)
    m.peerDependencies

/-- Splitting a character list at every occurrence of a separator character;
this is `String.prototype.split` with a single-character separator, which is
what `dep.split('@')` performs. -/
def splitOnChar (sep : Char) : List Char → List (List Char)
  | [] => [[]]
  | c :: cs =>
    if c == sep then [] :: splitOnChar sep cs
    else
      match splitOnChar sep cs with
      | [] => [[c]]
      | p :: ps => (c :: p) :: ps

/-- Model of `const [name, version] = dep.split('@')`: the requested identifier is
split on `'@'`; the first segment is the name, the second (if any) the
version constraint. -/
def parseDep (s : String) : String × Option String :=
  let parts := (splitOnChar '@' s.toList).map (fun cs => String.mk cs)
  (parts.headD "", parts[1]?)

/-- Whether a character list begins with the given needle. -/
def beginsWith : List Char → List Char → Bool
  | [], _ => true
  | _ :: _, [] => false
  | c :: cs, d :: ds => c == d && beginsWith cs ds

/-- The remainder of the haystack after the first occurrence of the needle,
or `none` when the needle does not occur. -/
def afterFirst (needle : List Char) : List Char → Option (List Char)
  | [] => if needle.isEmpty then some [] else none
  | d :: ds =>
    if beginsWith needle (d :: ds) then some ((d :: ds).drop needle.length)
    else afterFirst needle ds

/-- The test `packageJsonPath.match(/node_modules.*node_modules/)`: true iff
the path contains two successive occurrences of `node_modules`. -/
def hasNestedNodeModules (p : String) : Bool :=
  match afterFirst "node_modules".toList p.toList with
  | none => false
  | some rest => (afterFirst "node_modules".toList rest).isSome

/-- Joining path components with `/`. -/
def joinComponents : List String → String
  | [] => ""
  | [c] => c
  | c :: cs => c ++ "/" ++ joinComponents cs

/-- Components of an absolute POSIX path. -/
def splitPath (p : String) : List String :=
  ((splitOnChar '/' p.toList).map (fun cs => String.mk cs)).filter (fun c => c ≠ "")

/-- Model of `path.dirname` on an absolute POSIX path. -/
def dirname (p : String) : String :=
  "/" ++ joinComponents (splitPath p).dropLast

/-- Model of `foundVersion.replace(/[\^~]/, '')` — no global flag, so only the first
`'^'` or `'~'` character is removed. -/
def removeFirstRangeChar : List Char → List Char
  | [] => []
  | c :: cs => if c == '^' || c == '~' then cs else c :: removeFirstRangeChar cs

/-- Range-marker stripping applied before an unconstrained candidate's
version is stored. -/
def stripRangeMarker (v : String) : String :=
  String.mk (removeFirstRangeChar v.toList)

/-! ## Semantic versions

Model of the `semver` library as the source uses it: `semver.clean` (trim
whitespace, strip a leading run of `v`/`=` characters, per its
`replace(/^[=v]+/, '')`) followed by parsing `major.minor.patch` with an
optional dot-separated prerelease part, and `semver.compare` per the semver
specification: the numeric triple compares lexicographically; on equal
triples a release ranks above its prereleases; prerelease identifier lists
compare identifier by identifier, a numeric identifier numerically and
below any alphanumeric one, alphanumeric identifiers by character code, and
a shorter list below its extensions.  Numeric identifiers must not carry
leading zeroes, so the parse domain is a subset of the versions the real
library accepts (versions with `+build` metadata are also left out of the
modelled subset).  On a string outside its grammar the real `semver.compare`
throws, crashing the enclosing crawl; the model instead stays total by
ordering every unparseable string below every parseable one, and the
version-selection claim theorem carries hypotheses restricting it to runs
whose collected candidate versions all parse — the domain on which the
model and the library agree and no throw can occur. -/

/-- Comparison of two natural numbers, as `semver` compares numeric
identifiers. -/
def natCmp (a b : Nat) : Ordering :=
  if a < b then .lt else if a = b then .eq else .gt

/-- Lexicographic comparison of `(major, minor, patch)` triples (the
`compareMain` part of `semver.compare`). -/
def cmpTriple (x y : Nat × Nat × Nat) : Ordering :=
  match natCmp x.1 y.1 with
  | .eq =>
    match natCmp x.2.1 y.2.1 with
    | .eq => natCmp x.2.2 y.2.2
    | o => o
  | o => o

/-- One prerelease identifier, as the `semver` parser stores it: an
all-digit identifier becomes a number, any other identifier stays a
(character) string. -/
inductive PreId where
  /-- a numeric prerelease identifier -/
  | num (n : Nat)
  /-- an alphanumeric prerelease identifier -/
  | str (s : List Char)
deriving DecidableEq

/-- Lexicographic comparison of lists under an element comparison, with a
proper prefix ranking below its extensions; this is both the JS string
comparison on identifier characters and the `comparePre` loop over
prerelease identifiers. -/
def lexCmp {α : Type} (ec : α → α → Ordering) : List α → List α → Ordering
  | [], [] => .eq
  | [], _ :: _ => .lt
  | _ :: _, [] => .gt
  | x :: xs, y :: ys =>
    match ec x y with
    | .eq => lexCmp ec xs ys
    | o => o

/-- Comparison of two characters by code, as the JS `<` on the (ASCII)
identifier characters compares them. -/
def charCmp (c d : Char) : Ordering :=
  natCmp c.toNat d.toNat

/-- The `compareIdentifiers` order on prerelease identifiers: numeric
identifiers compare numerically and rank below any alphanumeric identifier;
alphanumeric identifiers compare as strings. -/
def cmpId : PreId → PreId → Ordering
  | .num a, .num b => natCmp a b
  | .num _, .str _ => .lt
  | .str _, .num _ => .gt
  | .str a, .str b => lexCmp charCmp a b

/-- The `comparePre` order on the optional prerelease part: a release ranks
above every prerelease of the same triple; two prerelease lists compare
identifier by identifier. -/
def cmpPre : Option (List PreId) → Option (List PreId) → Ordering
  | none, none => .eq
  | none, some _ => .gt
  | some _, none => .lt
  | some a, some b => lexCmp cmpId a b

/-- The comparison key of a parsed version: the numeric triple and the
optional prerelease identifier list. -/
abbrev SemKey := (Nat × Nat × Nat) × Option (List PreId)

/-- The full `semver.compare` order on parsed versions: `compareMain`, then
`comparePre` on an equal triple. -/
def cmpSemKey (x y : SemKey) : Ordering :=
  match cmpTriple x.1 y.1 with
  | .eq => cmpPre x.2 y.2
  | o => o

/-- Model of the `semver.clean` preprocessing: trim surrounding whitespace,
then strip the leading run of `v` and `=` characters
(`replace(/^[=v]+/, '')`). -/
def semverCleanStr (s : String) : String :=
  let t := ((s.toList.dropWhile Char.isWhitespace).reverse.dropWhile
    Char.isWhitespace).reverse
  String.mk (t.dropWhile (fun c => c == 'v' || c == '='))

/-- The numeric value of a non-empty all-digit character list. -/
def digitsVal (acc : Nat) : List Char → Option Nat
  | [] => some acc
  | c :: cs =>
    if c.isDigit then digitsVal (acc * 10 + (c.toNat - '0'.toNat)) cs else none

/-- Whether a character list starts with `0` and has further characters — a
numeric identifier shaped like this is rejected by the semver grammar. -/
def hasLeadingZero : List Char → Bool
  | '0' :: _ :: _ => true
  | _ => false

/-- Parse a numeric identifier of the version triple: non-empty, digits
only, no leading zero (semver's `0|[1-9]\d*`). -/
def parseNumId (cs : List Char) : Option Nat :=
  if cs.isEmpty || hasLeadingZero cs then none else digitsVal 0 cs

/-- A character the semver grammar allows in a prerelease identifier. -/
def isIdChar (c : Char) : Bool :=
  c.isDigit || c.isAlpha || c == '-'

/-- Parse one prerelease identifier: non-empty alphanumerics and hyphens;
an all-digit identifier must not carry a leading zero and becomes numeric,
any other identifier stays a string. -/
def parsePreId (cs : List Char) : Option PreId :=
  if cs.isEmpty || !(cs.all isIdChar) then none
  else if cs.all Char.isDigit then
    if hasLeadingZero cs then none else (digitsVal 0 cs).map PreId.num
  else some (PreId.str cs)

/-- The characters of the version before the first hyphen. -/
def mainPart : List Char → List Char
  | [] => []
  | c :: cs => if c == '-' then [] else c :: mainPart cs

/-- The characters after the first hyphen (the prerelease part), when a
hyphen occurs. -/
def prePart : List Char → Option (List Char)
  | [] => none
  | c :: cs => if c == '-' then some cs else prePart cs

/-- Collecting a list of parses, failing when any fails. -/
def allSome {α : Type} : List (Option α) → Option (List α)
  | [] => some []
  | none :: _ => none
  | some x :: rest => (allSome rest).map (fun l => x :: l)

/-- Parse `major.minor.patch` with an optional `-prerelease` part (versions
carrying `+build` metadata are outside the modelled subset and yield
`none`, as does every string the semver grammar rejects). -/
def parseSemverCore (s : String) : Option SemKey :=
  let cs := s.toList
  if cs.contains '+' then none
  else
    match (splitOnChar '.' (mainPart cs)).map parseNumId with
    | [some x, some y, some z] =>
      match prePart cs with
      | none => some ((x, y, z), none)
      | some pcs =>
        match allSome ((splitOnChar '.' pcs).map parsePreId) with
        | some ids => some ((x, y, z), some ids)
        | none => none
    | _ => none

/-- The comparison key of a version string. -/
def semverKey (s : String) : Option SemKey :=
  parseSemverCore (semverCleanStr s)

/-- Comparison of optional keys.  A version with no key is one the real
library would throw on; the model orders it below every parseable version
to stay total, and the version-selection theorem's hypotheses keep it out
of scope. -/
def keyCompare : Option SemKey → Option SemKey → Ordering
  | some x, some y => cmpSemKey x y
  | some _, none => .gt
  | none, some _ => .lt
  | none, none => .eq

/-- Model of `semver.compare(semver.clean(a) || a, semver.clean(b) || b)`
on the parseable domain (elsewhere the library throws; see `keyCompare`). -/
def semverCompare (a b : String) : Ordering :=
  keyCompare (semverKey a) (semverKey b)

/-! ## The crawl and the matcher -/

/-- One `package.json` file discovered by the crawl: its path, its parsed
content (`none` models a JSON parse failure), and the names `n` for which
the sibling directory `node_modules/n` exists on disk (so that `fs.access`
succeeds). -/
structure Entry where
  path : String
  content : Option Manifest
  installed : List String
deriving DecidableEq

/-- An entry of the `seenDeps` accumulation map: the cleaned version and the
`node_modules` path of one discovered unconstrained candidate. -/
structure Cand where
  version : String
  path : String
deriving DecidableEq, Inhabited

/-- The `seenDeps` map: dependency name to the candidates collected for it,
in discovery order. -/
abbrev SeenMap := List (String × List Cand)

/-- Model of `seenDeps.get(k).push(c)`, creating `seenDeps.set(k, [])` first when the
key is absent (a fresh key is appended, as `Map.set` does). -/
def jsMapPush (m : SeenMap) (k : String) (c : Cand) : SeenMap :=
  match m with
  | [] => [(k, [c])]
  | (k', cs) :: rest =>
    if k' == k then (k', cs ++ [c]) :: rest else (k', cs) :: jsMapPush rest k c

/-- One element of the final result list (`{dependency, path, version}`). -/
structure ResolutionResult where
  dependency : String
  path : String
  version : String
deriving DecidableEq, Inhabited

/-- The inner `for (const [depName, depVersion] of depsToSearch)` loop of one
manifest's processing: `dirPath` is `path.dirname(packageJsonPath)`, `deps`
the merged dependency object, `installed` the names whose sibling
`node_modules` directory exists.  The source's `hasOwnProperty` test is
subsumed by the truthiness test (a truthy looked-up version implies the key
is present).  A constrained match returns the single
match immediately (`return matches`); an unconstrained candidate is pushed
onto `seenDeps` and the loop continues; a missing `node_modules` directory
(`fs.access` failure) or a failed condition continues silently. -/
def matchSpecs (dirPath : String) (deps : List (String × String))
    (installed : List String) :
    List (String × Option String) → SeenMap → List ResolutionResult × SeenMap
  | [], seen => ([], seen)
  | (depName, depVersion) :: rest, seen =>
    let foundVersion := lookupJs deps depName
    if jsTruthy foundVersion && (!(jsTruthy depVersion) || foundVersion == depVersion) then
      if installed.contains depName then
        if !(jsTruthy depVersion) then
          matchSpecs dirPath deps installed rest
            (jsMapPush seen depName
              ⟨stripRangeMarker (foundVersion.getD ""),
               dirPath ++ "/node_modules/" ++ depName⟩)
        else
          ([⟨depName, dirPath ++ "/node_modules/" ++ depName, foundVersion.getD ""⟩],
           seen)
      else matchSpecs dirPath deps installed rest seen
    else matchSpecs dirPath deps installed rest seen

/-- Processing of one discovered `package.json`: skip it when its path
contains nested `node_modules`, skip it when it fails to parse, otherwise
run the matching loop against the merged dependency groups. -/
def processEntry (specs : List (String × Option String)) (e : Entry)
    (seen : SeenMap) : List ResolutionResult × SeenMap :=
  if hasNestedNodeModules e.path then ([], seen)
  else
    match e.content with
    | none => ([], seen)
    | some m => matchSpecs (dirname e.path) (mergedDeps m) e.installed specs seen

/-- Processing of one batch of manifests; the shared `seenDeps` map is
threaded through, and the constrained matches of the batch are concatenated
(`batchResults.flat()`). -/
def processBatch (specs : List (String × Option String)) :
    List Entry → SeenMap → List ResolutionResult × SeenMap
  | [], seen => ([], seen)
  | e :: es, seen =>
    let r := processEntry specs e seen
    let r' := processBatch specs es r.2
    (r.1 ++ r'.1, r'.2)

/-- Worker for batch grouping: `cur` is the current batch (reversed), `room`
how many elements still fit into it. -/
def chunksGo {α : Type} : List α → List α → Nat → List (List α)
  | [], cur, _ => if cur.isEmpty then [] else [cur.reverse]
  | x :: xs, cur, 0 => cur.reverse :: chunksGo xs [x] 49
  | x :: xs, cur, room + 1 => chunksGo xs (x :: cur) room

/-- Model of the `packageJsonPaths.slice(i, i + batchSize)` grouping with
`const batchSize = 50`. -/
def chunksOf50 {α : Type} (l : List α) : List (List α) :=
  chunksGo l [] 50

/-- Stable insertion of an element into a list sorted by `le`. -/
def insertLe {α : Type} (le : α → α → Bool) (x : α) : List α → List α
  | [] => [x]
  | y :: ys => if le x y then x :: y :: ys else y :: insertLe le x ys

/-- Stable insertion sort; this models `Array.prototype.sort` with a
consistent comparator, which is specified to produce the stable sorted
permutation of its input. -/
def insertionSort {α : Type} (le : α → α → Bool) : List α → List α
  | [] => []
  | x :: xs => insertLe le x (insertionSort le xs)

/-- The ascending comparator `(a, b) => semver.compare(...)` as a boolean
order. -/
def semverLeCand (a b : Cand) : Bool :=
  semverCompare a.version b.version ≠ .gt

/-- The candidate chosen for one unconstrained dependency:
`versions.sort((a, b) => semver.compare(...))` followed by
`sorted[sorted.length - 1]`. -/
def pickLatest (cands : List Cand) : Cand :=
  (insertionSort semverLeCand cands).getLastD default

/-- The loop over `seenDeps.entries()` run after each batch: for every
unconstrained dependency with at least one candidate, the latest candidate
by semver order is turned into a result. -/
def latestSelections (seen : SeenMap) : List ResolutionResult :=
  seen.filterMap fun p =>
    if p.2.length > 0 then
      some ⟨p.1, (pickLatest p.2).path, (pickLatest p.2).version⟩
    else none

/-- The outer batch loop: each batch's constrained matches are combined with
the selections from the accumulated `seenDeps`; as soon as this combined
list is non-empty it is pushed onto `results` and the loop `break`s. -/
def runBatches (specs : List (String × Option String)) :
    List (List Entry) → SeenMap → List ResolutionResult
  | [], _ => []
  | b :: bs, seen =>
    let r := processBatch specs b seen
    let flat := r.1 ++ latestSelections r.2
    if flat.isEmpty then runBatches specs bs r.2 else flat

/-- The caller's own state read at the start of `getDependencyPaths`: the
local manifest's `dependencies` mapping (empty when the file is missing or
has no such key) and the names present in the local `node_modules`
directory. -/
structure LocalState where
  localDeps : List (String × String)
  localModules : List String
deriving DecidableEq

/-- The fast path: a dependency whose name has a truthy entry in the local
manifest and whose directory exists in the local `node_modules` is already
installed. -/
def satisfiedLocally (st : LocalState) (n : String) : Bool :=
  jsTruthy (lookupJs st.localDeps n) && st.localModules.contains n

/-- Model of `depsToSearch`: the `dependencySpecs` entries minus the already-installed dependencies
(`if (!localVersion || !localModuleExists) depsToSearch.push(...)`). -/
def depsToSearchOf (names : List String) (st : LocalState) :
    List (String × Option String) :=
  (jsMapFromPairs (names.map parseDep)).filter fun p => !(satisfiedLocally st p.1)

/-- Model of `getDependencyPaths`: parse the requested identifiers, drop the ones
already satisfied locally (returning `[]` when none remain), then crawl the
discovered manifests in batches of 50. -/
def getDependencyPaths (names : List String) (st : LocalState)
    (entries : List Entry) : List ResolutionResult :=
  let depsToSearch := depsToSearchOf names st
  if depsToSearch.isEmpty then []
  else runBatches depsToSearch (chunksOf50 entries) []

/-! ## The installer (`copyDependenciesToLocal`) -/

/-- What happened to one resolved dependency inside the install loop. -/
inductive InstallStatus where
  /-- present on disk and in the local manifest: skipped -/
  | alreadyInstalled
  /-- present on disk but missing from the local manifest: recorded only -/
  | addedToManifest
  /-- copied from the cache and recorded in the local manifest -/
  | installed
  /-- the copy threw `EXDEV`; reported as already installed -/
  | softAlreadyInstalled
  /-- the copy threw some other error; reported as a failed install -/
  | copyFailed
  /-- the containment check refused the copy (invalid source location) -/
  | invalidSource
deriving DecidableEq

/-- The mutable local state of the installer: the contents of the local
`node_modules` directory and the local manifest's `dependencies` object. -/
structure CopyCtx where
  modules : List String
  pkgDeps : List (String × String)
deriving DecidableEq

/-- Whether the first component list is an initial segment of the second. -/
def initialSegment : List String → List String → Bool
  | [], _ => true
  | _ :: _, [] => false
  | a :: as, b :: bs => a == b && initialSegment as bs

/-- The containment guard
`path.relative(targetPath, dep.path).startsWith('..') || path.isAbsolute(...)`:
for two absolute POSIX paths the relative path starts with `..` exactly when
the target is not a path prefix of the source (and it is never absolute), so
the guard passes iff the source lies outside the target directory. -/
def safeSourceLocation (targetPath sourcePath : String) : Bool :=
  !(initialSegment (splitPath targetPath) (splitPath sourcePath))

/-- The body of the install loop for one resolved dependency.  `copyErr`
gives the error code thrown by `fs.copy` for that dependency (`none` for a
successful copy); the manifest entry is written only after a successful
copy, and an `EXDEV` failure is caught and reported as already installed. -/
def processDep (cwd : String) (copyErr : String → Option String) (ctx : CopyCtx)
    (dep : ResolutionResult) : CopyCtx × InstallStatus :=
  let targetPath := cwd ++ "/node_modules/" ++ dep.dependency
  let depExists := ctx.modules.contains dep.dependency
  let depInPackageJson := jsTruthy (lookupJs ctx.pkgDeps dep.dependency)
  if depExists && depInPackageJson then (ctx, .alreadyInstalled)
  else if safeSourceLocation targetPath dep.path then
    if depExists then
      ({ ctx with pkgDeps := jsSet ctx.pkgDeps dep.dependency dep.version },
       .addedToManifest)
    else
      match copyErr dep.dependency with
      | none =>
        ({ modules := ctx.modules ++ [dep.dependency],
           pkgDeps := jsSet ctx.pkgDeps dep.dependency dep.version },
         .installed)
      | some code =>
        if code == "EXDEV" then (ctx, .softAlreadyInstalled)
        else (ctx, .copyFailed)
  else (ctx, .invalidSource)

/-- The `for (const dep of dependencies)` install loop, recording per-item
outcomes. -/
def installAll (cwd : String) (copyErr : String → Option String) :
    CopyCtx → List ResolutionResult → CopyCtx × List (String × InstallStatus)
  | ctx, [] => (ctx, [])
  | ctx, d :: ds =>
    let r := processDep cwd copyErr ctx d
    let r' := installAll cwd copyErr r.1 ds
    (r'.1, (d.dependency, r.2) :: r'.2)

/-- The outcome of `copyDependenciesToLocal`: the final local state, the
per-dependency statuses, and the remainder handed to the fallback package
manager. -/
structure CopyReport where
  finalCtx : CopyCtx
  statuses : List (String × InstallStatus)
  missingDeps : List String
deriving DecidableEq

/-- Model of `copyDependenciesToLocal(dependencies, allDependencies, packageManager)`:
install every resolved dependency, write the manifest, then compute
`missingDeps = allDependencies.filter(d => !foundDeps.has(d.split('@')[0]))`
and, when non-empty, hand it to the fallback package manager. -/
def copyDependenciesToLocal (cwd : String) (copyErr : String → Option String)
    (deps : List ResolutionResult) (allDependencies : List String)
    (ctx : CopyCtx) : CopyReport :=
  let r := installAll cwd copyErr ctx deps
  let foundDeps := deps.map (·.dependency)
  let missingDeps :=
    allDependencies.filter fun d => !(foundDeps.contains (parseDep d).1)
  ⟨r.1, r.2, missingDeps⟩

/-! ## The full pass (`main`) -/

/-- The whole observable world one run acts on: the caller's local state,
the crawlable manifests, the outcome of every possible copy, and the exit
code the fallback package manager would return if invoked. -/
structure World where
  localDeps : List (String × String)
  localModules : List String
  entries : List Entry
  copyErr : String → Option String
  fallbackExit : Nat

/-- The observable outcome of one full pass. -/
structure PassOutcome where
  exitCode : Nat
  fallbackArgs : Option (List String)
  statuses : List (String × InstallStatus)
  finalDeps : List (String × String)
  finalModules : List String
  manifestWritten : Bool
deriving DecidableEq

/-- The `main` control flow for an explicit request list: resolve, and if
nothing was found hand the entire request list to the fallback package
manager (a non-zero subprocess exit is fatal there, `process.exit(1)`);
otherwise run the installer, whose own fallback invocation failure is only
logged, after which the process finishes with exit code 0. -/
def fullPass (cwd : String) (names : List String) (w : World) : PassOutcome :=
  let results := getDependencyPaths names ⟨w.localDeps, w.localModules⟩ w.entries
  if results.isEmpty then
    { exitCode := if w.fallbackExit == 0 then 0 else 1
      fallbackArgs := some names
      statuses := []
      finalDeps := w.localDeps
      finalModules := w.localModules
      manifestWritten := false }
  else
    let rep := copyDependenciesToLocal cwd w.copyErr results names
      ⟨w.localModules, w.localDeps⟩
    { exitCode := 0
      fallbackArgs := if rep.missingDeps.isEmpty then none else some rep.missingDeps
      statuses := rep.statuses
      finalDeps := rep.finalCtx.pkgDeps
      finalModules := rep.finalCtx.modules
      manifestWritten := true }

/-- The filesystem state after a pass, for running the pass again. -/
def afterPass (w : World) (o : PassOutcome) : World :=
  { w with localDeps := o.finalDeps, localModules := o.finalModules }

/-- The dependencies a pass actually copied from the cache. -/
def copiesOf (o : PassOutcome) : List String :=
  (o.statuses.filter fun p => p.2 == .installed).map (·.1)

/-- The candidate one manifest contributes for an unconstrained dependency
name: the merged mapping must declare a truthy version for the name and the
sibling `node_modules/<name>` directory must exist; the stored version is
range-marker stripped.  (This re-states the unconstrained branch of
`matchSpecs` as a per-entry observation, for the statements about version
resolution.) -/
def candAt (dirPath : String) (deps : List (String × String))
    (installed : List String) (n : String) : Option Cand :=
  let foundVersion := lookupJs deps n
  if jsTruthy foundVersion && installed.contains n then
    some ⟨stripRangeMarker (foundVersion.getD ""), dirPath ++ "/node_modules/" ++ n⟩
  else none

/-- The function `candAt` lifted to a crawl entry, with the nested-path and parse-failure
skips applied. -/
def entryCandidate (e : Entry) (n : String) : Option Cand :=
  if hasNestedNodeModules e.path then none
  else
    match e.content with
    | none => none
    | some m => candAt (dirname e.path) (mergedDeps m) e.installed n

/-- The candidate list collected in `seenDeps` for one name. -/
def seenLookup (m : SeenMap) (n : String) : List Cand :=
  (((m.find? (fun p => p.1 == n)).map (·.2)).getD [])

/-! ## Concrete scenarios used as counterexamples -/

/-- A manifest in the first batch declaring the unconstrained dependency at
version 1.0.0. -/
def claim1FirstEntry : Entry := ⟨"/a/p", some ⟨[("lp", "1.0.0")], [], []⟩, ["lp"]⟩

/-- A filler manifest that fails to parse and contributes nothing. -/
def claim1Filler : Entry := ⟨"/f/p", none, []⟩

/-- A manifest in the second batch declaring the same dependency at the
higher version 2.0.0. -/
def claim1LaterEntry : Entry := ⟨"/b/p", some ⟨[("lp", "2.0.0")], [], []⟩, ["lp"]⟩

/-- A 51-manifest crawl: the 1.0.0 candidate lands in the first batch of 50,
the 2.0.0 candidate in the second batch. -/
def claim1Entries : List Entry :=
  claim1FirstEntry :: (List.replicate 49 claim1Filler ++ [claim1LaterEntry])

/-- A world in which the dependency `lp` is resolvable from the crawl and
the fallback package manager would exit with code 1. -/
def claim3World : World :=
  ⟨[], [], [⟨"/a/p", some ⟨[("lp", "1.0.0")], [], []⟩, ["lp"]⟩], fun _ => none, 1⟩

/-- A world in which `a` is already satisfied locally and `b` is resolvable
from the crawl. -/
def claim4World : World :=
  ⟨[("a", "1.0.0")], ["a"],
   [⟨"/c/p", some ⟨[("b", "1.0.0")], [], []⟩, ["b"]⟩], fun _ => none, 0⟩

/-- A world in which `lp` is resolvable from the crawl and the fallback
package manager would exit with code 1. -/
def claim5World : World :=
  ⟨[], [], [⟨"/a/p", some ⟨[("lp", "1.0.0")], [], []⟩, ["lp"]⟩], fun _ => none, 1⟩

/-- Two manifests, in the same batch, both declaring `react: 17.0.2` with an
existing install directory. -/
def claim7Entries : List Entry :=
  [⟨"/a/p", some ⟨[("react", "17.0.2")], [], []⟩, ["react"]⟩,
   ⟨"/b/p", some ⟨[("react", "17.0.2")], [], []⟩, ["react"]⟩]

/-! ## Lemmas about the JavaScript object model -/

theorem lookupJs_nil {β : Type} (k : String) : lookupJs ([] : List (String × β)) k = none := rfl

theorem lookupJs_cons {β : Type} (k₀ : String) (v₀ : β) (rest : List (String × β))
    (k' : String) :
    lookupJs ((k₀, v₀) :: rest) k' =
      if k₀ = k' then some v₀ else lookupJs rest k' := by
  by_cases h : k₀ = k'
  · rw [if_pos h]
    unfold lookupJs
    rw [List.find?_cons_of_pos _ (by simpa using h)]
    rfl
  · rw [if_neg h]
    unfold lookupJs
    rw [List.find?_cons_of_neg _ (by simpa using h)]

theorem lookupJs_jsSet {β : Type} (m : List (String × β)) (k k' : String) (v : β) :
    lookupJs (jsSet m k v) k' = if k' = k then some v else lookupJs m k' := by
  induction m with
  | nil =>
    show lookupJs [(k, v)] k' = _
    rw [lookupJs_cons]
    by_cases h : k' = k
    · rw [if_pos h.symm, if_pos h]
    · rw [if_neg (fun hh => h hh.symm), if_neg h, lookupJs_nil]
  | cons p rest ih =>
    obtain ⟨k₀, v₀⟩ := p
    show lookupJs (if k₀ == k then (k₀, v) :: rest else (k₀, v₀) :: jsSet rest k v) k' = _
    by_cases h0 : k₀ = k
    · rw [if_pos (by simpa using h0)]
      subst h0
      rw [lookupJs_cons, lookupJs_cons]
      by_cases h : k₀ = k'
      · rw [if_pos h, if_pos h.symm]
      · rw [if_neg h, if_neg (fun hh => h hh.symm), if_neg h]
    · rw [if_neg (by simpa using h0)]
      rw [lookupJs_cons, lookupJs_cons]
      by_cases h : k₀ = k'
      · have hk : ¬ k' = k := fun hh => h0 (h.trans hh)
        rw [if_pos h, if_neg hk, if_pos h]
      · rw [if_neg h, ih, if_neg h]

theorem mem_jsSet {β : Type} {m : List (String × β)} {k : String} {v : β}
    {p : String × β} (h : p ∈ jsSet m k v) : p ∈ m ∨ p = (k, v) := by
  induction m with
  | nil => simpa [jsSet] using h
  | cons q rest ih =>
    obtain ⟨k₀, v₀⟩ := q
    simp only [jsSet] at h
    by_cases h0 : k₀ = k
    · subst h0
      rw [if_pos (by simp)] at h
      rcases List.mem_cons.mp h with h | h
      · right; simpa using h
      · left; exact List.mem_cons_of_mem _ h
    · rw [if_neg (by simpa using h0)] at h
      rcases List.mem_cons.mp h with h | h
      · left; simp [h]
      · rcases ih h with h | h
        · left; exact List.mem_cons_of_mem _ h
        · right; exact h

theorem lookupJs_eq_none {β : Type} {m : List (String × β)} {k : String}
    (h : ∀ p ∈ m, p.1 ≠ k) : lookupJs m k = none := by
  have hf : m.find? (fun p => p.1 == k) = none :=
    List.find?_eq_none.mpr (fun p hp => by simpa using h p hp)
  rw [lookupJs, hf]
  rfl

theorem mem_foldl_jsSet {β : Type} {l : List (String × β)}
    {acc : List (String × β)} {p : String × β}
    (h : p ∈ l.foldl (fun acc q => jsSet acc q.1 q.2) acc) : p ∈ acc ∨ p ∈ l := by
  induction l generalizing acc with
  | nil => left; simpa using h
  | cons q rest ih =>
    simp only [List.foldl_cons] at h
    rcases ih h with h | h
    · rcases mem_jsSet h with h | h
      · left; exact h
      · right; simp [h]
    · right; exact List.mem_cons_of_mem _ h

theorem mem_jsMapFromPairs {β : Type} {l : List (String × β)} {p : String × β}
    (h : p ∈ jsMapFromPairs l) : p ∈ l := by
  rcases mem_foldl_jsSet h with h | h
  · simp at h
  · exact h

theorem lookupJs_jsObjAssign {β : Type} (base upd : List (String × β)) (k : String)
    (hupd : (upd.map (·.1)).Nodup) :
    lookupJs (jsObjAssign base upd) k =
      (lookupJs upd k).orElse (fun _ => lookupJs base k) := by
  induction upd generalizing base with
  | nil =>
    show lookupJs base k = (Option.orElse none _)
    rfl
  | cons p rest ih =>
    obtain ⟨k₀, v₀⟩ := p
    simp only [List.map_cons, List.nodup_cons] at hupd
    have hassign : jsObjAssign base ((k₀, v₀) :: rest) = jsObjAssign (jsSet base k₀ v₀) rest := rfl
    rw [hassign, ih _ hupd.2, lookupJs_cons]
    by_cases h : k₀ = k
    · have hrest : lookupJs rest k = none :=
        lookupJs_eq_none (fun p hp hk => hupd.1 (by
          have hk0 : k₀ = p.1 := h.trans hk.symm
          rw [hk0]
          exact List.mem_map.mpr ⟨p, hp, rfl⟩))
      rw [if_pos h, hrest, lookupJs_jsSet, if_pos h.symm]
      rfl
    · rw [if_neg h, lookupJs_jsSet, if_neg (fun hh => h hh.symm)]

/-- The merged dependency object resolves a name by trying the groups in
reverse spread order: `peerDependencies` first, then `devDependencies`, then
`dependencies` — the later spread group wins a name collision. -/
theorem lookupJs_mergedDeps (m : Manifest) (n : String)
    (h1 : (m.dependencies.map (·.1)).Nodup)
    (h2 : (m.devDependencies.map (·.1)).Nodup)
    (h3 : (m.peerDependencies.map (·.1)).Nodup) :
    lookupJs (mergedDeps m) n =
      (lookupJs m.peerDependencies n).orElse
        (fun _ => (lookupJs m.devDependencies n).orElse
          (fun _ => lookupJs m.dependencies n)) := by
  rw [mergedDeps, lookupJs_jsObjAssign _ _ _ h3, lookupJs_jsObjAssign _ _ _ h2,
    lookupJs_jsObjAssign _ _ _ h1]
  cases lookupJs m.peerDependencies n with
  | none =>
    cases lookupJs m.devDependencies n with
    | none =>
      cases lookupJs m.dependencies n with
      | none => rfl
      | some v => rfl
    | some v => rfl
  | some v => rfl

/-! ## Claim C6 -/

/-- Claim C6, counterexample: a manifest declaring `a: 1.0.0` in
`dependencies` and `a: 2.0.0` in `devDependencies` merges to `a: 2.0.0` —
the later group *does* overwrite the version declared by the earlier group,
so the merge is not first-group-wins. -/
theorem claim6_counterexample :
    lookupJs (mergedDeps ⟨[("a", "1.0.0")], [("a", "2.0.0")], []⟩) "a" =
        some "2.0.0" ∧
      lookupJs (mergedDeps ⟨[("a", "1.0.0")], [("a", "2.0.0")], []⟩) "a" ≠
        lookupJs ([("a", "1.0.0")] : List (String × String)) "a" := by
  constructor
  · rfl
  · decide

/-- Claim C6, amended: when `DependencyMatcher` merges the three dependency
groups (regular, dev, peer, in that spread order) into one name-to-version
mapping, a name collision between groups is resolved last-group-wins: the
merged mapping takes the `peerDependencies` version when that group declares
the name, otherwise the `devDependencies` version, otherwise the
`dependencies` version. -/
theorem claim6_merge_last_group_wins (m : Manifest) (n : String)
    (h1 : (m.dependencies.map (·.1)).Nodup)
    (h2 : (m.devDependencies.map (·.1)).Nodup)
    (h3 : (m.peerDependencies.map (·.1)).Nodup) :
    lookupJs (mergedDeps m) n =
      (lookupJs m.peerDependencies n).orElse
        (fun _ => (lookupJs m.devDependencies n).orElse
          (fun _ => lookupJs m.dependencies n)) :=
  lookupJs_mergedDeps m n h1 h2 h3

/-! ## Lemmas about the version order and the sort -/

theorem natCmp_eq_lt {a b : Nat} : natCmp a b = .lt ↔ a < b := by
  unfold natCmp
  split_ifs with h1 h2 <;> simp <;> omega

theorem natCmp_eq_eq {a b : Nat} : natCmp a b = .eq ↔ a = b := by
  unfold natCmp
  split_ifs with h1 h2 <;> simp <;> omega

theorem natCmp_eq_gt {a b : Nat} : natCmp a b = .gt ↔ b < a := by
  unfold natCmp
  split_ifs with h1 h2 <;> simp <;> omega

theorem natCmp_gt_iff {a b : Nat} : natCmp a b = .gt ↔ natCmp b a = .lt := by
  rw [natCmp_eq_gt, natCmp_eq_lt]

theorem natCmp_lt_trans {a b c : Nat} (h1 : natCmp a b = .lt)
    (h2 : natCmp b c = .lt) : natCmp a c = .lt := by
  rw [natCmp_eq_lt] at h1 h2 ⊢
  omega

theorem lexCmp_eq_iff {α : Type} (ec : α → α → Ordering)
    (heq : ∀ a b, ec a b = .eq ↔ a = b) :
    ∀ l1 l2 : List α, lexCmp ec l1 l2 = .eq ↔ l1 = l2 := by
  intro l1
  induction l1 with
  | nil =>
    intro l2
    cases l2 with
    | nil => simp [lexCmp]
    | cons y ys => simp [lexCmp]
  | cons x xs ih =>
    intro l2
    cases l2 with
    | nil => simp [lexCmp]
    | cons y ys =>
      rw [lexCmp]
      cases h : ec x y with
      | lt =>
        simp only [List.cons.injEq]
        constructor
        · intro hfalse
          exact absurd hfalse (by simp)
        · rintro ⟨rfl, -⟩
          rw [(heq x x).mpr rfl] at h
          exact absurd h (by simp)
      | gt =>
        simp only [List.cons.injEq]
        constructor
        · intro hfalse
          exact absurd hfalse (by simp)
        · rintro ⟨rfl, -⟩
          rw [(heq x x).mpr rfl] at h
          exact absurd h (by simp)
      | eq =>
        have hx := (heq x y).mp h
        subst hx
        rw [ih ys]
        simp

theorem lexCmp_gt_iff {α : Type} (ec : α → α → Ordering)
    (heq : ∀ a b, ec a b = .eq ↔ a = b)
    (hswap : ∀ a b, ec a b = .gt ↔ ec b a = .lt) :
    ∀ l1 l2 : List α, lexCmp ec l1 l2 = .gt ↔ lexCmp ec l2 l1 = .lt := by
  intro l1
  induction l1 with
  | nil =>
    intro l2
    cases l2 with
    | nil => simp [lexCmp]
    | cons y ys => simp [lexCmp]
  | cons x xs ih =>
    intro l2
    cases l2 with
    | nil => simp [lexCmp]
    | cons y ys =>
      rw [lexCmp, lexCmp]
      cases h : ec x y with
      | lt =>
        have hyx : ec y x = .gt := (hswap y x).mpr h
        rw [hyx]
        simp
      | gt =>
        have hyx : ec y x = .lt := (hswap x y).mp h
        rw [hyx]
        simp
      | eq =>
        have hx := (heq x y).mp h
        subst hx
        rw [(heq x x).mpr rfl]
        exact ih ys

theorem lexCmp_lt_trans {α : Type} (ec : α → α → Ordering)
    (heq : ∀ a b, ec a b = .eq ↔ a = b)
    (hlt : ∀ a b c, ec a b = .lt → ec b c = .lt → ec a c = .lt) :
    ∀ l1 l2 l3 : List α, lexCmp ec l1 l2 = .lt → lexCmp ec l2 l3 = .lt →
      lexCmp ec l1 l3 = .lt := by
  intro l1
  induction l1 with
  | nil =>
    intro l2 l3 h1 h2
    cases l2 with
    | nil => exact h2
    | cons y ys =>
      cases l3 with
      | nil => exact absurd h2 (by simp [lexCmp])
      | cons z zs => simp [lexCmp]
  | cons x xs ih =>
    intro l2 l3 h1 h2
    cases l2 with
    | nil => exact absurd h1 (by simp [lexCmp])
    | cons y ys =>
      cases l3 with
      | nil => exact absurd h2 (by simp [lexCmp])
      | cons z zs =>
        rw [lexCmp] at h1 h2 ⊢
        cases hxy : ec x y with
        | gt => rw [hxy] at h1; exact absurd h1 (by simp)
        | lt =>
          cases hyz : ec y z with
          | gt => rw [hyz] at h2; exact absurd h2 (by simp)
          | lt => rw [hlt x y z hxy hyz]
          | eq =>
            have hy := (heq y z).mp hyz
            subst hy
            rw [hxy]
        | eq =>
          have hx := (heq x y).mp hxy
          subst hx
          cases hyz : ec x z with
          | gt => rw [hyz] at h2; exact absurd h2 (by simp)
          | lt => rfl
          | eq =>
            rw [hxy] at h1
            rw [hyz] at h2
            exact ih ys zs h1 h2

theorem charCmp_eq_iff (c d : Char) : charCmp c d = .eq ↔ c = d := by
  rw [charCmp, natCmp_eq_eq]
  constructor
  · intro h
    exact Char.ext (UInt32.toNat.inj h)
  · intro h
    rw [h]

theorem charCmp_gt_iff (c d : Char) : charCmp c d = .gt ↔ charCmp d c = .lt :=
  natCmp_gt_iff

theorem charCmp_lt_trans (c d e : Char) (h1 : charCmp c d = .lt)
    (h2 : charCmp d e = .lt) : charCmp c e = .lt :=
  natCmp_lt_trans h1 h2

theorem cmpId_eq_iff (a b : PreId) : cmpId a b = .eq ↔ a = b := by
  cases a with
  | num x =>
    cases b with
    | num y =>
      show natCmp x y = .eq ↔ _
      rw [natCmp_eq_eq]
      simp
    | str t => simp [cmpId]
  | str s =>
    cases b with
    | num y => simp [cmpId]
    | str t =>
      show lexCmp charCmp s t = .eq ↔ _
      rw [lexCmp_eq_iff charCmp charCmp_eq_iff]
      simp

theorem cmpId_gt_iff (a b : PreId) : cmpId a b = .gt ↔ cmpId b a = .lt := by
  cases a with
  | num x =>
    cases b with
    | num y => exact natCmp_gt_iff
    | str t => simp [cmpId]
  | str s =>
    cases b with
    | num y => simp [cmpId]
    | str t => exact lexCmp_gt_iff charCmp charCmp_eq_iff charCmp_gt_iff s t

theorem cmpId_lt_trans (a b c : PreId) (h1 : cmpId a b = .lt)
    (h2 : cmpId b c = .lt) : cmpId a c = .lt := by
  cases a with
  | num x =>
    cases b with
    | num y =>
      cases c with
      | num z => exact natCmp_lt_trans h1 h2
      | str t => rfl
    | str t =>
      cases c with
      | num z => exact absurd h2 (by simp [cmpId])
      | str u => rfl
  | str s =>
    cases b with
    | num y => exact absurd h1 (by simp [cmpId])
    | str t =>
      cases c with
      | num z => exact absurd h2 (by simp [cmpId])
      | str u => exact lexCmp_lt_trans charCmp charCmp_eq_iff charCmp_lt_trans s t u h1 h2

theorem cmpTriple_eq_lex (x y : Nat × Nat × Nat) :
    cmpTriple x y =
      lexCmp natCmp [x.1, x.2.1, x.2.2] [y.1, y.2.1, y.2.2] := by
  obtain ⟨a1, b1, c1⟩ := x
  obtain ⟨a2, b2, c2⟩ := y
  cases h1 : natCmp a1 a2 <;> cases h2 : natCmp b1 b2 <;>
    cases h3 : natCmp c1 c2 <;> simp [cmpTriple, lexCmp, h1, h2, h3]

theorem cmpTriple_eq_iff (x y : Nat × Nat × Nat) :
    cmpTriple x y = .eq ↔ x = y := by
  rw [cmpTriple_eq_lex, lexCmp_eq_iff natCmp (fun a b => natCmp_eq_eq)]
  obtain ⟨a1, b1, c1⟩ := x
  obtain ⟨a2, b2, c2⟩ := y
  simp

theorem cmpTriple_gt_iff (x y : Nat × Nat × Nat) :
    cmpTriple x y = .gt ↔ cmpTriple y x = .lt := by
  rw [cmpTriple_eq_lex, cmpTriple_eq_lex]
  exact lexCmp_gt_iff natCmp (fun a b => natCmp_eq_eq)
    (fun a b => natCmp_gt_iff) _ _

theorem cmpTriple_lt_trans (x y z : Nat × Nat × Nat)
    (h1 : cmpTriple x y = .lt) (h2 : cmpTriple y z = .lt) :
    cmpTriple x z = .lt := by
  rw [cmpTriple_eq_lex] at h1 h2 ⊢
  exact lexCmp_lt_trans natCmp (fun a b => natCmp_eq_eq)
    (fun a b c => natCmp_lt_trans) _ _ _ h1 h2

theorem cmpPre_eq_iff (p q : Option (List PreId)) : cmpPre p q = .eq ↔ p = q := by
  cases p with
  | none =>
    cases q with
    | none => simp [cmpPre]
    | some b => simp [cmpPre]
  | some a =>
    cases q with
    | none => simp [cmpPre]
    | some b =>
      show lexCmp cmpId a b = .eq ↔ _
      rw [lexCmp_eq_iff cmpId cmpId_eq_iff]
      simp

theorem cmpPre_gt_iff (p q : Option (List PreId)) :
    cmpPre p q = .gt ↔ cmpPre q p = .lt := by
  cases p with
  | none =>
    cases q with
    | none => simp [cmpPre]
    | some b => simp [cmpPre]
  | some a =>
    cases q with
    | none => simp [cmpPre]
    | some b => exact lexCmp_gt_iff cmpId cmpId_eq_iff cmpId_gt_iff a b

theorem cmpPre_lt_trans (p q r : Option (List PreId))
    (h1 : cmpPre p q = .lt) (h2 : cmpPre q r = .lt) : cmpPre p r = .lt := by
  cases p with
  | none =>
    cases q with
    | none => exact h2
    | some b => exact absurd h1 (by simp [cmpPre])
  | some a =>
    cases q with
    | none =>
      cases r with
      | none => rfl
      | some c => exact absurd h2 (by simp [cmpPre])
    | some b =>
      cases r with
      | none => rfl
      | some c => exact lexCmp_lt_trans cmpId cmpId_eq_iff cmpId_lt_trans a b c h1 h2

theorem cmpSemKey_eq_iff (x y : SemKey) : cmpSemKey x y = .eq ↔ x = y := by
  rw [cmpSemKey]
  cases h : cmpTriple x.1 y.1 with
  | lt =>
    constructor
    · intro hfalse
      exact absurd hfalse (by simp)
    · intro hxy
      rw [hxy, (cmpTriple_eq_iff y.1 y.1).mpr rfl] at h
      exact absurd h (by simp)
  | gt =>
    constructor
    · intro hfalse
      exact absurd hfalse (by simp)
    · intro hxy
      rw [hxy, (cmpTriple_eq_iff y.1 y.1).mpr rfl] at h
      exact absurd h (by simp)
  | eq =>
    have ht := (cmpTriple_eq_iff x.1 y.1).mp h
    rw [cmpPre_eq_iff]
    constructor
    · intro hp
      exact Prod.ext ht hp
    · intro hxy
      rw [hxy]

theorem cmpSemKey_gt_iff (x y : SemKey) :
    cmpSemKey x y = .gt ↔ cmpSemKey y x = .lt := by
  rw [cmpSemKey, cmpSemKey]
  cases h : cmpTriple x.1 y.1 with
  | lt =>
    have hyx : cmpTriple y.1 x.1 = .gt := (cmpTriple_gt_iff y.1 x.1).mpr h
    rw [hyx]
    simp
  | gt =>
    have hyx : cmpTriple y.1 x.1 = .lt := (cmpTriple_gt_iff x.1 y.1).mp h
    rw [hyx]
    simp
  | eq =>
    have ht := (cmpTriple_eq_iff x.1 y.1).mp h
    have hyx : cmpTriple y.1 x.1 = .eq := (cmpTriple_eq_iff y.1 x.1).mpr ht.symm
    rw [hyx]
    exact cmpPre_gt_iff x.2 y.2

theorem cmpSemKey_lt_trans (x y z : SemKey) (h1 : cmpSemKey x y = .lt)
    (h2 : cmpSemKey y z = .lt) : cmpSemKey x z = .lt := by
  rw [cmpSemKey] at h1 h2 ⊢
  cases hxy : cmpTriple x.1 y.1 with
  | gt => rw [hxy] at h1; exact absurd h1 (by simp)
  | lt =>
    cases hyz : cmpTriple y.1 z.1 with
    | gt => rw [hyz] at h2; exact absurd h2 (by simp)
    | lt => rw [cmpTriple_lt_trans x.1 y.1 z.1 hxy hyz]
    | eq =>
      have ht := (cmpTriple_eq_iff y.1 z.1).mp hyz
      rw [← ht, hxy]
  | eq =>
    have ht := (cmpTriple_eq_iff x.1 y.1).mp hxy
    cases hyz : cmpTriple y.1 z.1 with
    | gt => rw [hyz] at h2; exact absurd h2 (by simp)
    | lt => rw [ht, hyz]
    | eq =>
      have ht2 : cmpTriple x.1 z.1 = .eq := by
        rw [ht]
        exact hyz
      rw [ht2]
      rw [hxy] at h1
      rw [hyz] at h2
      exact cmpPre_lt_trans x.2 y.2 z.2 h1 h2

theorem keyCompare_ne_gt_refl (k : Option SemKey) :
    keyCompare k k ≠ .gt := by
  cases k with
  | none => simp [keyCompare]
  | some x =>
    show cmpSemKey x x ≠ .gt
    rw [(cmpSemKey_eq_iff x x).mpr rfl]
    simp

theorem keyCompare_ne_gt_total (k l : Option SemKey)
    (h : ¬ keyCompare k l ≠ .gt) : keyCompare l k ≠ .gt := by
  cases k with
  | none => cases l <;> simp [keyCompare] at h
  | some x =>
    cases l with
    | none => simp [keyCompare]
    | some y =>
      rw [not_not] at h
      have hyx : cmpSemKey y x = .lt := (cmpSemKey_gt_iff x y).mp h
      show cmpSemKey y x ≠ .gt
      rw [hyx]
      simp

theorem keyCompare_ne_gt_trans (k l p : Option SemKey)
    (h1 : keyCompare k l ≠ .gt) (h2 : keyCompare l p ≠ .gt) :
    keyCompare k p ≠ .gt := by
  cases k with
  | none => cases p <;> simp [keyCompare]
  | some x =>
    cases l with
    | none => simp [keyCompare] at h1
    | some y =>
      cases p with
      | none => simp [keyCompare] at h2
      | some z =>
        have h1' : cmpSemKey x y ≠ .gt := h1
        have h2' : cmpSemKey y z ≠ .gt := h2
        show cmpSemKey x z ≠ .gt
        cases o1 : cmpSemKey x y with
        | gt => exact absurd o1 h1'
        | lt =>
          cases o2 : cmpSemKey y z with
          | gt => exact absurd o2 h2'
          | lt =>
            rw [cmpSemKey_lt_trans x y z o1 o2]
            simp
          | eq =>
            have hy := (cmpSemKey_eq_iff y z).mp o2
            rw [← hy, o1]
            simp
        | eq =>
          have hx := (cmpSemKey_eq_iff x y).mp o1
          rw [hx]
          exact h2'

theorem semverLeCand_refl (a : Cand) : semverLeCand a a = true := by
  rw [semverLeCand, decide_eq_true_iff]
  exact keyCompare_ne_gt_refl _

theorem semverLeCand_total (a b : Cand) (h : ¬ semverLeCand a b = true) :
    semverLeCand b a = true := by
  rw [semverLeCand, decide_eq_true_iff] at h ⊢
  exact keyCompare_ne_gt_total _ _ h

theorem semverLeCand_trans (a b c : Cand) (h1 : semverLeCand a b = true)
    (h2 : semverLeCand b c = true) : semverLeCand a c = true := by
  rw [semverLeCand, decide_eq_true_iff] at h1 h2 ⊢
  exact keyCompare_ne_gt_trans _ _ _ h1 h2

theorem mem_insertLe {α : Type} (le : α → α → Bool) (x : α) (l : List α)
    (y : α) : y ∈ insertLe le x l ↔ y = x ∨ y ∈ l := by
  induction l with
  | nil => simp [insertLe]
  | cons z zs ih =>
    rw [insertLe]
    by_cases h : le x z
    · rw [if_pos h]
      simp
    · rw [if_neg h]
      simp only [List.mem_cons, ih]
      tauto

theorem mem_insertionSort {α : Type} (le : α → α → Bool) (l : List α) (y : α) :
    y ∈ insertionSort le l ↔ y ∈ l := by
  induction l with
  | nil => simp [insertionSort]
  | cons z zs ih =>
    rw [insertionSort, mem_insertLe]
    simp [ih]

theorem pairwise_insertLe {α : Type} (le : α → α → Bool)
    (htot : ∀ a b, ¬ le a b = true → le b a = true)
    (htr : ∀ a b c, le a b = true → le b c = true → le a c = true)
    (x : α) (l : List α) (h : l.Pairwise (fun a b => le a b = true)) :
    (insertLe le x l).Pairwise (fun a b => le a b = true) := by
  induction l with
  | nil => simp [insertLe]
  | cons z zs ih =>
    rw [insertLe]
    rcases List.pairwise_cons.mp h with ⟨hz, hzs⟩
    by_cases hle : le x z
    · rw [if_pos hle]
      refine List.pairwise_cons.mpr ⟨?_, h⟩
      intro w hw
      rcases List.mem_cons.mp hw with hw | hw
      · rw [hw]; exact hle
      · exact htr x z w hle (hz w hw)
    · rw [if_neg hle]
      refine List.pairwise_cons.mpr ⟨?_, ih hzs⟩
      intro w hw
      rcases (mem_insertLe le x zs w).mp hw with hw | hw
      · rw [hw]; exact htot x z hle
      · exact hz w hw

theorem pairwise_insertionSort {α : Type} (le : α → α → Bool)
    (htot : ∀ a b, ¬ le a b = true → le b a = true)
    (htr : ∀ a b c, le a b = true → le b c = true → le a c = true)
    (l : List α) :
    (insertionSort le l).Pairwise (fun a b => le a b = true) := by
  induction l with
  | nil => simp [insertionSort]
  | cons z zs ih => exact pairwise_insertLe le htot htr z _ ih

theorem getLastD_mem {α : Type} (l : List α) (d : α) (h : l ≠ []) :
    l.getLastD d ∈ l := by
  induction l generalizing d with
  | nil => exact absurd rfl h
  | cons z zs ih =>
    cases zs with
    | nil => simp [List.getLastD]
    | cons w ws =>
      rw [List.getLastD_cons]
      exact List.mem_cons_of_mem _ (ih z (by simp))

theorem le_getLastD {α : Type} (le : α → α → Bool)
    (hrefl : ∀ a, le a a = true) (l : List α)
    (hp : l.Pairwise (fun a b => le a b = true)) (d x : α) (hx : x ∈ l) :
    le x (l.getLastD d) = true := by
  induction l generalizing d with
  | nil => simp at hx
  | cons z zs ih =>
    rcases List.pairwise_cons.mp hp with ⟨hz, hzs⟩
    cases zs with
    | nil =>
      rcases List.mem_cons.mp hx with hx | hx
      · rw [hx]; simp [List.getLastD, hrefl]
      · simp at hx
    | cons w ws =>
      rw [List.getLastD_cons]
      rcases List.mem_cons.mp hx with hx | hx
      · rw [hx]
        exact hz _ (getLastD_mem (w :: ws) z (by simp))
      · exact ih hzs z hx

/-- Every collected candidate compares no greater than the candidate the
resolver picks. -/
theorem mem_le_pickLatest (cands : List Cand) (c : Cand) (hc : c ∈ cands) :
    semverCompare c.version (pickLatest cands).version ≠ .gt := by
  have hmem : c ∈ insertionSort semverLeCand cands :=
    (mem_insertionSort semverLeCand cands c).mpr hc
  have hp := pairwise_insertionSort semverLeCand semverLeCand_total
    semverLeCand_trans cands
  have hle := le_getLastD semverLeCand semverLeCand_refl _ hp default c hmem
  rw [semverLeCand, decide_eq_true_iff] at hle
  exact hle

/-- The candidate the resolver picks is one of the collected candidates. -/
theorem pickLatest_mem (cands : List Cand) (h : cands ≠ []) :
    pickLatest cands ∈ cands := by
  have hs : insertionSort semverLeCand cands ≠ [] := by
    intro h0
    cases cands with
    | nil => exact h rfl
    | cons x xs =>
      have hx : x ∈ insertionSort semverLeCand (x :: xs) :=
        (mem_insertionSort semverLeCand (x :: xs) x).mpr (by simp)
      rw [h0] at hx
      simp at hx
  have hmem := getLastD_mem (insertionSort semverLeCand cands) default hs
  show (insertionSort semverLeCand cands).getLastD default ∈ cands
  exact (mem_insertionSort semverLeCand cands _).mp hmem

/-! ## Lemmas about map keys and the seenDeps accumulator -/

theorem keys_jsSet {β : Type} (m : List (String × β)) (k : String) (v : β) :
    (jsSet m k v).map (·.1) =
      if k ∈ m.map (·.1) then m.map (·.1) else m.map (·.1) ++ [k] := by
  induction m with
  | nil => simp [jsSet]
  | cons p rest ih =>
    obtain ⟨k₀, v₀⟩ := p
    show (if k₀ == k then (k₀, v) :: rest else (k₀, v₀) :: jsSet rest k v).map
      (·.1) = _
    by_cases h : k₀ = k
    · subst h
      rw [if_pos (by simp)]
      rw [if_pos (by simp)]
      simp
    · rw [if_neg (by simpa using h), List.map_cons, ih]
      by_cases hk : k ∈ rest.map (·.1)
      · rw [if_pos hk, if_pos (by simp [hk])]
        rfl
      · rw [if_neg hk, if_neg (by simp [hk, Ne.symm h])]
        simp

theorem keys_nodup_jsSet {β : Type} (m : List (String × β)) (k : String) (v : β)
    (h : (m.map (·.1)).Nodup) : ((jsSet m k v).map (·.1)).Nodup := by
  rw [keys_jsSet]
  by_cases hk : k ∈ m.map (·.1)
  · rw [if_pos hk]; exact h
  · rw [if_neg hk]
    simp [List.nodup_append, h, hk]

theorem keys_nodup_jsMapFromPairs {β : Type} (l : List (String × β)) :
    ((jsMapFromPairs l).map (·.1)).Nodup := by
  have hgen : ∀ (l' : List (String × β)) (acc : List (String × β)),
      (acc.map (·.1)).Nodup →
      ((l'.foldl (fun acc q => jsSet acc q.1 q.2) acc).map (·.1)).Nodup := by
    intro l'
    induction l' with
    | nil => intro acc h; exact h
    | cons q rest ih =>
      intro acc h
      exact ih _ (keys_nodup_jsSet acc q.1 q.2 h)
  exact hgen l [] (by simp)

theorem keys_jsMapPush (m : SeenMap) (k : String) (c : Cand) :
    (jsMapPush m k c).map (·.1) =
      if k ∈ m.map (·.1) then m.map (·.1) else m.map (·.1) ++ [k] := by
  induction m with
  | nil => simp [jsMapPush]
  | cons p rest ih =>
    obtain ⟨k₀, cs⟩ := p
    show (if k₀ == k then (k₀, cs ++ [c]) :: rest else (k₀, cs) :: jsMapPush rest k c).map
      (·.1) = _
    by_cases h : k₀ = k
    · subst h
      rw [if_pos (by simp)]
      rw [if_pos (by simp)]
      simp
    · rw [if_neg (by simpa using h), List.map_cons, ih]
      by_cases hk : k ∈ rest.map (·.1)
      · rw [if_pos hk, if_pos (by simp [hk])]
        rfl
      · rw [if_neg hk, if_neg (by simp [hk, Ne.symm h])]
        simp

theorem keys_nodup_jsMapPush (m : SeenMap) (k : String) (c : Cand)
    (h : (m.map (·.1)).Nodup) : ((jsMapPush m k c).map (·.1)).Nodup := by
  rw [keys_jsMapPush]
  by_cases hk : k ∈ m.map (·.1)
  · rw [if_pos hk]; exact h
  · rw [if_neg hk]
    simp [List.nodup_append, h, hk]

theorem seenLookup_cons (k₀ : String) (cs : List Cand) (rest : SeenMap)
    (n : String) :
    seenLookup ((k₀, cs) :: rest) n = if k₀ = n then cs else seenLookup rest n := by
  by_cases h : k₀ = n
  · rw [if_pos h]
    unfold seenLookup
    rw [List.find?_cons_of_pos _ (by simpa using h)]
    rfl
  · rw [if_neg h]
    unfold seenLookup
    rw [List.find?_cons_of_neg _ (by simpa using h)]

theorem seenLookup_jsMapPush_self (m : SeenMap) (k : String) (c : Cand) :
    seenLookup (jsMapPush m k c) k = seenLookup m k ++ [c] := by
  induction m with
  | nil =>
    show seenLookup [(k, [c])] k = _
    rw [seenLookup_cons, if_pos rfl]
    rfl
  | cons p rest ih =>
    obtain ⟨k₀, cs⟩ := p
    show seenLookup (if k₀ == k then (k₀, cs ++ [c]) :: rest
      else (k₀, cs) :: jsMapPush rest k c) k = _
    by_cases h : k₀ = k
    · rw [if_pos (by simpa using h), seenLookup_cons, if_pos h,
        seenLookup_cons, if_pos h]
    · rw [if_neg (by simpa using h), seenLookup_cons, if_neg h, ih,
        seenLookup_cons, if_neg h]

theorem seenLookup_jsMapPush_other (m : SeenMap) (k : String) (c : Cand)
    (n : String) (h : k ≠ n) :
    seenLookup (jsMapPush m k c) n = seenLookup m n := by
  induction m with
  | nil =>
    show seenLookup [(k, [c])] n = _
    rw [seenLookup_cons, if_neg h]
  | cons p rest ih =>
    obtain ⟨k₀, cs⟩ := p
    show seenLookup (if k₀ == k then (k₀, cs ++ [c]) :: rest
      else (k₀, cs) :: jsMapPush rest k c) n = _
    by_cases h0 : k₀ = k
    · subst h0
      rw [if_pos (by simp), seenLookup_cons, if_neg h, seenLookup_cons, if_neg h]
    · rw [if_neg (by simpa using h0), seenLookup_cons, ih, seenLookup_cons]

theorem mem_keys_jsMapPush {m : SeenMap} {k : String} {c : Cand} {n : String}
    (h : n ∈ (jsMapPush m k c).map (·.1)) : n ∈ m.map (·.1) ∨ n = k := by
  rw [keys_jsMapPush] at h
  by_cases hk : k ∈ m.map (·.1)
  · rw [if_pos hk] at h; exact Or.inl h
  · rw [if_neg hk] at h
    rcases List.mem_append.mp h with h | h
    · exact Or.inl h
    · exact Or.inr (by simpa using h)

/-! ## Lemmas about the matcher -/

theorem matchSpecs_fst_name {dir : String} {deps : List (String × String)}
    {inst : List String} {specs : List (String × Option String)} {seen : SeenMap}
    {r : ResolutionResult}
    (h : r ∈ (matchSpecs dir deps inst specs seen).1) :
    r.dependency ∈ specs.map (·.1) := by
  induction specs generalizing seen with
  | nil => simp [matchSpecs] at h
  | cons p rest ih =>
    obtain ⟨n, v⟩ := p
    rw [matchSpecs] at h
    by_cases h1 : (jsTruthy (lookupJs deps n) &&
        (!(jsTruthy v) || lookupJs deps n == v)) = true
    · rw [if_pos h1] at h
      by_cases h2 : inst.contains n = true
      · rw [if_pos h2] at h
        by_cases h3 : (!(jsTruthy v)) = true
        · rw [if_pos h3] at h
          exact List.mem_cons_of_mem _ (ih h)
        · rw [if_neg h3] at h
          rcases List.mem_singleton.mp h with rfl
          simp
      · rw [if_neg h2] at h
        exact List.mem_cons_of_mem _ (ih h)
    · rw [if_neg h1] at h
      exact List.mem_cons_of_mem _ (ih h)

theorem matchSpecs_keys {dir : String} {deps : List (String × String)}
    {inst : List String} {specs : List (String × Option String)} {seen : SeenMap}
    {n : String}
    (h : n ∈ (matchSpecs dir deps inst specs seen).2.map (·.1)) :
    n ∈ seen.map (·.1) ∨ n ∈ specs.map (·.1) := by
  induction specs generalizing seen with
  | nil => exact Or.inl (by simpa [matchSpecs] using h)
  | cons p rest ih =>
    obtain ⟨m', v⟩ := p
    rw [matchSpecs] at h
    by_cases h1 : (jsTruthy (lookupJs deps m') &&
        (!(jsTruthy v) || lookupJs deps m' == v)) = true
    · rw [if_pos h1] at h
      by_cases h2 : inst.contains m' = true
      · rw [if_pos h2] at h
        by_cases h3 : (!(jsTruthy v)) = true
        · rw [if_pos h3] at h
          rcases ih h with h | h
          · rcases mem_keys_jsMapPush h with h | h
            · exact Or.inl h
            · exact Or.inr (by simp [h])
          · exact Or.inr (List.mem_cons_of_mem _ h)
        · rw [if_neg h3] at h
          exact Or.inl h
      · rw [if_neg h2] at h
        rcases ih h with h | h
        · exact Or.inl h
        · exact Or.inr (List.mem_cons_of_mem _ h)
    · rw [if_neg h1] at h
      rcases ih h with h | h
      · exact Or.inl h
      · exact Or.inr (List.mem_cons_of_mem _ h)

theorem matchSpecs_keys_nodup {dir : String} {deps : List (String × String)}
    {inst : List String} {specs : List (String × Option String)} {seen : SeenMap}
    (h : (seen.map (·.1)).Nodup) :
    ((matchSpecs dir deps inst specs seen).2.map (·.1)).Nodup := by
  induction specs generalizing seen with
  | nil => simpa [matchSpecs] using h
  | cons p rest ih =>
    obtain ⟨m', v⟩ := p
    rw [matchSpecs]
    by_cases h1 : (jsTruthy (lookupJs deps m') &&
        (!(jsTruthy v) || lookupJs deps m' == v)) = true
    · rw [if_pos h1]
      by_cases h2 : inst.contains m' = true
      · rw [if_pos h2]
        by_cases h3 : (!(jsTruthy v)) = true
        · rw [if_pos h3]
          exact ih (keys_nodup_jsMapPush _ _ _ h)
        · rw [if_neg h3]
          exact h
      · rw [if_neg h2]
        exact ih h
    · rw [if_neg h1]
      exact ih h

theorem matchSpecs_fst_nil {dir : String} {deps : List (String × String)}
    {inst : List String} {specs : List (String × Option String)} {seen : SeenMap}
    (hunc : ∀ p ∈ specs, jsTruthy p.2 = false) :
    (matchSpecs dir deps inst specs seen).1 = [] := by
  induction specs generalizing seen with
  | nil => rfl
  | cons p rest ih =>
    obtain ⟨m', v⟩ := p
    have hv : jsTruthy v = false := hunc (m', v) (by simp)
    have hrest : ∀ p ∈ rest, jsTruthy p.2 = false :=
      fun p hp => hunc p (List.mem_cons_of_mem _ hp)
    rw [matchSpecs]
    by_cases h1 : (jsTruthy (lookupJs deps m') &&
        (!(jsTruthy v) || lookupJs deps m' == v)) = true
    · rw [if_pos h1]
      by_cases h2 : inst.contains m' = true
      · rw [if_pos h2, if_pos (by rw [hv]; rfl)]
        exact ih hrest
      · rw [if_neg h2]
        exact ih hrest
    · rw [if_neg h1]
      exact ih hrest

theorem matchSpecs_seenLookup {dir : String} {deps : List (String × String)}
    {inst : List String} {specs : List (String × Option String)} {seen : SeenMap}
    {n : String}
    (hnd : (specs.map (·.1)).Nodup)
    (hunc : ∀ p ∈ specs, jsTruthy p.2 = false) :
    seenLookup (matchSpecs dir deps inst specs seen).2 n =
      if n ∈ specs.map (·.1) then
        seenLookup seen n ++ (candAt dir deps inst n).toList
      else seenLookup seen n := by
  induction specs generalizing seen with
  | nil => simp [matchSpecs]
  | cons p rest ih =>
    obtain ⟨m', v⟩ := p
    have hv : jsTruthy v = false := hunc (m', v) (by simp)
    have hrest : ∀ p ∈ rest, jsTruthy p.2 = false :=
      fun p hp => hunc p (List.mem_cons_of_mem _ hp)
    simp only [List.map_cons, List.nodup_cons] at hnd
    rw [matchSpecs]
    have hcond : (jsTruthy (lookupJs deps m') &&
        (!(jsTruthy v) || lookupJs deps m' == v)) =
        jsTruthy (lookupJs deps m') := by
      rw [hv]
      simp
    rw [hcond]
    by_cases h1 : jsTruthy (lookupJs deps m') = true
    · rw [if_pos h1]
      by_cases h2 : inst.contains m' = true
      · rw [if_pos h2, if_pos (by rw [hv]; rfl), ih hnd.2 hrest]
        have hcand : candAt dir deps inst m' =
            some ⟨stripRangeMarker ((lookupJs deps m').getD ""),
              dir ++ "/node_modules/" ++ m'⟩ := by
          rw [candAt]
          simp only [h1, h2, Bool.and_self, if_pos]
        by_cases hn : n = m'
        · subst hn
          rw [if_neg (fun hmem => hnd.1 hmem), if_pos (by simp),
            seenLookup_jsMapPush_self, hcand]
          rfl
        · rw [seenLookup_jsMapPush_other _ _ _ _ (Ne.symm hn)]
          by_cases hr : n ∈ rest.map (·.1)
          · rw [if_pos hr, if_pos (by simp [hr])]
          · rw [if_neg hr, if_neg (by simp [hr, hn])]
      · rw [if_neg h2, ih hnd.2 hrest]
        have hcand : candAt dir deps inst m' = none := by
          rw [candAt]
          simp only [h2]
          simp
        by_cases hn : n = m'
        · subst hn
          rw [if_neg (fun hmem => hnd.1 hmem), if_pos (by simp), hcand]
          simp
        · by_cases hr : n ∈ rest.map (·.1)
          · rw [if_pos hr, if_pos (by simp [hr])]
          · rw [if_neg hr, if_neg (by simp [hr, hn])]
    · rw [if_neg h1, ih hnd.2 hrest]
      have hcand' : candAt dir deps inst m' = none := by
        rw [candAt]
        simp only [Bool.not_eq_true] at h1
        simp [h1]
      by_cases hn : n = m'
      · subst hn
        rw [if_neg (fun hmem => hnd.1 hmem), if_pos (by simp), hcand']
        simp
      · by_cases hr : n ∈ rest.map (·.1)
        · rw [if_pos hr, if_pos (by simp [hr])]
        · rw [if_neg hr, if_neg (by simp [hr, hn])]

/-! ## Lemmas about entry and batch processing -/

theorem processEntry_fst_name {specs : List (String × Option String)} {e : Entry}
    {seen : SeenMap} {r : ResolutionResult}
    (h : r ∈ (processEntry specs e seen).1) : r.dependency ∈ specs.map (·.1) := by
  rw [processEntry] at h
  by_cases hn : hasNestedNodeModules e.path = true
  · rw [if_pos hn] at h; simp at h
  · rw [if_neg hn] at h
    cases hc : e.content with
    | none => rw [hc] at h; simp at h
    | some m =>
      rw [hc] at h
      exact matchSpecs_fst_name h

theorem processEntry_keys {specs : List (String × Option String)} {e : Entry}
    {seen : SeenMap} {n : String}
    (h : n ∈ (processEntry specs e seen).2.map (·.1)) :
    n ∈ seen.map (·.1) ∨ n ∈ specs.map (·.1) := by
  rw [processEntry] at h
  by_cases hn : hasNestedNodeModules e.path = true
  · rw [if_pos hn] at h; exact Or.inl h
  · rw [if_neg hn] at h
    cases hc : e.content with
    | none => rw [hc] at h; exact Or.inl h
    | some m =>
      rw [hc] at h
      exact matchSpecs_keys h

theorem processEntry_keys_nodup {specs : List (String × Option String)} {e : Entry}
    {seen : SeenMap} (h : (seen.map (·.1)).Nodup) :
    ((processEntry specs e seen).2.map (·.1)).Nodup := by
  rw [processEntry]
  by_cases hn : hasNestedNodeModules e.path = true
  · rw [if_pos hn]; exact h
  · rw [if_neg hn]
    cases hc : e.content with
    | none => exact h
    | some m => exact matchSpecs_keys_nodup h

theorem processEntry_fst_nil {specs : List (String × Option String)} {e : Entry}
    {seen : SeenMap} (hunc : ∀ p ∈ specs, jsTruthy p.2 = false) :
    (processEntry specs e seen).1 = [] := by
  rw [processEntry]
  by_cases hn : hasNestedNodeModules e.path = true
  · rw [if_pos hn]
  · rw [if_neg hn]
    cases hc : e.content with
    | none => rfl
    | some m => exact matchSpecs_fst_nil hunc

theorem processEntry_seenLookup {specs : List (String × Option String)} {e : Entry}
    {seen : SeenMap} {n : String}
    (hnd : (specs.map (·.1)).Nodup)
    (hunc : ∀ p ∈ specs, jsTruthy p.2 = false) :
    seenLookup (processEntry specs e seen).2 n =
      if n ∈ specs.map (·.1) then
        seenLookup seen n ++ (entryCandidate e n).toList
      else seenLookup seen n := by
  rw [processEntry, entryCandidate]
  by_cases hn : hasNestedNodeModules e.path = true
  · rw [if_pos hn, if_pos hn]
    by_cases hs : n ∈ specs.map (·.1)
    · rw [if_pos hs]; simp
    · rw [if_neg hs]
  · rw [if_neg hn, if_neg hn]
    cases hc : e.content with
    | none =>
      by_cases hs : n ∈ specs.map (·.1)
      · rw [if_pos hs]; simp
      · rw [if_neg hs]
    | some m => exact matchSpecs_seenLookup hnd hunc

theorem processBatch_fst_name {specs : List (String × Option String)}
    {es : List Entry} {seen : SeenMap} {r : ResolutionResult}
    (h : r ∈ (processBatch specs es seen).1) : r.dependency ∈ specs.map (·.1) := by
  induction es generalizing seen with
  | nil => simp [processBatch] at h
  | cons e es ih =>
    rw [processBatch] at h
    rcases List.mem_append.mp h with h | h
    · exact processEntry_fst_name h
    · exact ih h

theorem processBatch_keys {specs : List (String × Option String)}
    {es : List Entry} {seen : SeenMap} {n : String}
    (h : n ∈ (processBatch specs es seen).2.map (·.1)) :
    n ∈ seen.map (·.1) ∨ n ∈ specs.map (·.1) := by
  induction es generalizing seen with
  | nil => exact Or.inl (by simpa [processBatch] using h)
  | cons e es ih =>
    rw [processBatch] at h
    rcases ih h with h | h
    · exact processEntry_keys h
    · exact Or.inr h

theorem processBatch_keys_nodup {specs : List (String × Option String)}
    {es : List Entry} {seen : SeenMap} (h : (seen.map (·.1)).Nodup) :
    ((processBatch specs es seen).2.map (·.1)).Nodup := by
  induction es generalizing seen with
  | nil => simpa [processBatch] using h
  | cons e es ih =>
    rw [processBatch]
    exact ih (processEntry_keys_nodup h)

theorem processBatch_fst_nil {specs : List (String × Option String)}
    {es : List Entry} {seen : SeenMap}
    (hunc : ∀ p ∈ specs, jsTruthy p.2 = false) :
    (processBatch specs es seen).1 = [] := by
  induction es generalizing seen with
  | nil => rfl
  | cons e es ih =>
    rw [processBatch]
    rw [processEntry_fst_nil hunc, ih]
    rfl

theorem processBatch_seenLookup {specs : List (String × Option String)}
    {es : List Entry} {seen : SeenMap} {n : String}
    (hnd : (specs.map (·.1)).Nodup)
    (hunc : ∀ p ∈ specs, jsTruthy p.2 = false) :
    seenLookup (processBatch specs es seen).2 n =
      if n ∈ specs.map (·.1) then
        seenLookup seen n ++ es.filterMap (fun e => entryCandidate e n)
      else seenLookup seen n := by
  induction es generalizing seen with
  | nil =>
    by_cases hs : n ∈ specs.map (·.1)
    · rw [if_pos hs]; simp [processBatch]
    · rw [if_neg hs]; rfl
  | cons e es ih =>
    show seenLookup (processBatch specs es (processEntry specs e seen).2).2 n = _
    rw [ih, processEntry_seenLookup hnd hunc]
    by_cases hs : n ∈ specs.map (·.1)
    · rw [if_pos hs, if_pos hs, if_pos hs, List.filterMap_cons]
      cases hec : entryCandidate e n with
      | none => simp
      | some c => simp
    · rw [if_neg hs, if_neg hs, if_neg hs]

/-! ## Lemmas about version selection and the batch loop -/

theorem mem_latestSelections {seen : SeenMap} {r : ResolutionResult}
    (h : r ∈ latestSelections seen) :
    ∃ cs, (r.dependency, cs) ∈ seen ∧ cs ≠ [] ∧
      r.path = (pickLatest cs).path ∧ r.version = (pickLatest cs).version := by
  rw [latestSelections] at h
  rcases List.mem_filterMap.mp h with ⟨p, hp, hf⟩
  by_cases hl : p.2.length > 0
  · rw [if_pos hl] at hf
    rcases Option.some_inj.mp hf
    refine ⟨p.2, ?_, ?_, rfl, rfl⟩
    · show (p.1, p.2) ∈ seen
      simpa using hp
    · intro hnil
      rw [hnil] at hl
      simp at hl
  · rw [if_neg hl] at hf
    simp at hf

theorem latestSelections_names {seen : SeenMap} {n : String}
    (h : n ∈ (latestSelections seen).map (·.dependency)) : n ∈ seen.map (·.1) := by
  rcases List.mem_map.mp h with ⟨r, hr, hrn⟩
  rcases mem_latestSelections hr with ⟨cs, hmem, -, -, -⟩
  rw [← hrn]
  exact List.mem_map.mpr ⟨(r.dependency, cs), hmem, rfl⟩

theorem latestSelections_names_nodup {seen : SeenMap}
    (h : (seen.map (·.1)).Nodup) :
    ((latestSelections seen).map (·.dependency)).Nodup := by
  induction seen with
  | nil => simp [latestSelections]
  | cons p rest ih =>
    obtain ⟨k, cs⟩ := p
    simp only [List.map_cons, List.nodup_cons] at h
    rw [latestSelections, List.filterMap_cons]
    by_cases hl : cs.length > 0
    · rw [if_pos hl]
      rw [List.map_cons, List.nodup_cons]
      refine ⟨?_, ih h.2⟩
      intro hmem
      exact h.1 (latestSelections_names hmem)
    · rw [if_neg hl]
      exact ih h.2

theorem seenLookup_of_mem {seen : SeenMap} {k : String} {cs : List Cand}
    (hnd : (seen.map (·.1)).Nodup) (h : (k, cs) ∈ seen) :
    seenLookup seen k = cs := by
  induction seen with
  | nil => simp at h
  | cons p rest ih =>
    obtain ⟨k₀, cs₀⟩ := p
    simp only [List.map_cons, List.nodup_cons] at hnd
    rcases List.mem_cons.mp h with h | h
    · rcases Prod.mk.injEq .. ▸ h with ⟨h1, h2⟩
      rw [seenLookup_cons, if_pos h1.symm]
      exact h2.symm
    · by_cases hk : k₀ = k
      · exfalso
        apply hnd.1
        rw [hk]
        exact List.mem_map.mpr ⟨(k, cs), h, rfl⟩
      · rw [seenLookup_cons, if_neg hk]
        exact ih hnd.2 h

theorem runBatches_fst_name {specs : List (String × Option String)}
    {chunks : List (List Entry)} {seen : SeenMap} {r : ResolutionResult}
    (h : r ∈ runBatches specs chunks seen) :
    r.dependency ∈ specs.map (·.1) ∨ r.dependency ∈ seen.map (·.1) := by
  induction chunks generalizing seen with
  | nil => simp [runBatches] at h
  | cons b bs ih =>
    rw [runBatches] at h
    by_cases hf : ((processBatch specs b seen).1 ++
        latestSelections (processBatch specs b seen).2).isEmpty = true
    · rw [if_pos hf] at h
      rcases ih h with h | h
      · exact Or.inl h
      · rcases processBatch_keys h with h | h
        · exact Or.inr h
        · exact Or.inl h
    · rw [if_neg hf] at h
      rcases List.mem_append.mp h with h | h
      · exact Or.inl (processBatch_fst_name h)
      · have hn : r.dependency ∈ (processBatch specs b seen).2.map (·.1) :=
          latestSelections_names (List.mem_map.mpr ⟨r, h, rfl⟩)
        rcases processBatch_keys hn with h | h
        · exact Or.inr h
        · exact Or.inl h

theorem runBatches_names_nodup {specs : List (String × Option String)}
    {chunks : List (List Entry)} {seen : SeenMap}
    (hunc : ∀ p ∈ specs, jsTruthy p.2 = false)
    (hkeys : (seen.map (·.1)).Nodup) :
    ((runBatches specs chunks seen).map (·.dependency)).Nodup := by
  induction chunks generalizing seen with
  | nil => simp [runBatches]
  | cons b bs ih =>
    rw [runBatches]
    by_cases hf : ((processBatch specs b seen).1 ++
        latestSelections (processBatch specs b seen).2).isEmpty = true
    · rw [if_pos hf]
      exact ih (processBatch_keys_nodup hkeys)
    · rw [if_neg hf]
      rw [processBatch_fst_nil hunc, List.nil_append]
      exact latestSelections_names_nodup (processBatch_keys_nodup hkeys)

theorem chunksGo_of_le {α : Type} (l : List α) (acc : List α) (room : Nat)
    (h : l.length ≤ room) :
    chunksGo l acc room =
      if (acc.reverse ++ l).isEmpty then [] else [acc.reverse ++ l] := by
  induction l generalizing acc room with
  | nil =>
    cases acc <;> simp [chunksGo]
  | cons x xs ih =>
    cases room with
    | zero => simp at h
    | succ r =>
      show chunksGo xs (x :: acc) r = _
      rw [ih (x :: acc) r (by simpa using h)]
      have hx : (x :: acc).reverse ++ xs = acc.reverse ++ (x :: xs) := by
        simp
      rw [hx]

theorem chunksOf50_single {α : Type} (l : List α) (hne : l ≠ [])
    (hlen : l.length ≤ 50) : chunksOf50 l = [l] := by
  rw [chunksOf50, chunksGo_of_le l [] 50 hlen]
  simp [hne]

theorem depsToSearch_keys_nodup (names : List String) (st : LocalState) :
    ((depsToSearchOf names st).map (·.1)).Nodup := by
  have h := keys_nodup_jsMapFromPairs (names.map parseDep)
  rw [depsToSearchOf]
  exact List.Nodup.sublist (List.Sublist.map _ (List.filter_sublist _)) h

/-! ## Claim C7, amended -/

/-- Claim C7, amended: for a run in which every searched spec is
unconstrained, the dependency names of the final result set are unique
(each comes from a distinct key of the `seenDeps` map). -/
theorem claim7_unconstrained_names_unique (names : List String) (st : LocalState)
    (entries : List Entry)
    (hunc : ∀ p ∈ depsToSearchOf names st, jsTruthy p.2 = false) :
    ((getDependencyPaths names st entries).map (·.dependency)).Nodup := by
  rw [getDependencyPaths]
  by_cases he : (depsToSearchOf names st).isEmpty = true
  · rw [if_pos he]; simp
  · rw [if_neg he]
    exact runBatches_names_nodup hunc (by simp)

/-- Witness for the amended C7 theorem: an unconstrained two-dependency run
yields a result set with distinct names. -/
theorem claim7_witness :
    ((getDependencyPaths ["a", "b"] ⟨[], []⟩
      [⟨"/a/p", some ⟨[("a", "1.0.0"), ("b", "2.0.0")], [], []⟩, ["a", "b"]⟩]).map
        (·.dependency)).Nodup :=
  claim7_unconstrained_names_unique ["a", "b"] ⟨[], []⟩
    [⟨"/a/p", some ⟨[("a", "1.0.0"), ("b", "2.0.0")], [], []⟩, ["a", "b"]⟩]
    (by decide)

/-! ## Claim C1, amended -/

/-- Claim C1, amended: when the whole crawl fits in a single batch (at most
50 manifests), every searched spec is unconstrained, and every candidate
version the crawl collects is a valid semver version — the domain on which
`semver.compare` is defined (on a string outside it the real library
throws, aborting the crawl) and on which the model's order coincides with
the library's — the result chosen for a dependency name carries a valid
version that is maximal, in the semver order, among the versions of all
candidates any crawled manifest contributes for that name. -/
theorem claim1_single_batch_max (names : List String) (st : LocalState)
    (entries : List Entry) (n : String) (r : ResolutionResult) (e : Entry)
    (c : Cand)
    (hlen : entries.length ≤ 50)
    (hunc : ∀ p ∈ depsToSearchOf names st, jsTruthy p.2 = false)
    (hvalid : ∀ p ∈ depsToSearchOf names st, ∀ e' ∈ entries,
      ∀ c' ∈ (entryCandidate e' p.1).toList, (semverKey c'.version).isSome = true)
    (hr : r ∈ getDependencyPaths names st entries)
    (hn : r.dependency = n)
    (he : e ∈ entries) (hc : entryCandidate e n = some c) :
    semverCompare c.version r.version ≠ .gt ∧
      (semverKey r.version).isSome = true := by
  have hne : entries ≠ [] := by
    intro hnil
    rw [hnil] at he
    simp at he
  rw [getDependencyPaths] at hr
  by_cases hemp : (depsToSearchOf names st).isEmpty = true
  · rw [if_pos hemp] at hr
    simp at hr
  · rw [if_neg hemp] at hr
    rw [chunksOf50_single entries hne hlen, runBatches] at hr
    have hfst : (processBatch (depsToSearchOf names st) entries []).1 = [] :=
      processBatch_fst_nil hunc
    by_cases hf : ((processBatch (depsToSearchOf names st) entries []).1 ++
        latestSelections (processBatch (depsToSearchOf names st) entries []).2).isEmpty
        = true
    · rw [if_pos hf] at hr
      simp [runBatches] at hr
    · rw [if_neg hf] at hr
      rw [hfst, List.nil_append] at hr
      rcases mem_latestSelections hr with ⟨cs, hmem, hcsne, hpath, hver⟩
      have hkeysnd : ((processBatch (depsToSearchOf names st) entries []).2.map
          (·.1)).Nodup := processBatch_keys_nodup (by simp)
      have hlook := seenLookup_of_mem hkeysnd hmem
      rw [hn] at hlook
      have hnd := depsToSearch_keys_nodup names st
      have hacc := @processBatch_seenLookup (depsToSearchOf names st)
        entries [] n hnd hunc
      by_cases hs : n ∈ (depsToSearchOf names st).map (·.1)
      · rw [if_pos hs] at hacc
        have hcs : cs = entries.filterMap (fun e => entryCandidate e n) := by
          rw [← hlook, hacc]
          rfl
        subst hcs
        refine ⟨?_, ?_⟩
        · rw [hver]
          exact mem_le_pickLatest _ c (List.mem_filterMap.mpr ⟨e, he, hc⟩)
        · have hpmem := pickLatest_mem _ hcsne
          rcases List.mem_filterMap.mp hpmem with ⟨e0, he0, hce0⟩
          rcases List.mem_map.mp hs with ⟨p, hp, hpn⟩
          have hv := hvalid p hp e0 he0
            (pickLatest (entries.filterMap (fun e => entryCandidate e n))) (by
              rw [hpn, hce0]
              simp)
          rw [hver]
          exact hv
      · rw [if_neg hs] at hacc
        rw [hacc] at hlook
        exact absurd hlook.symm hcsne

/-- Witness for the amended C1 theorem: a two-manifest single-batch crawl
where the 1.0.0 candidate compares no greater than the selected, valid
2.0.0. -/
theorem claim1_witness :
    (semverCompare (Cand.mk "1.0.0" "/a/node_modules/lp").version
      (ResolutionResult.mk "lp" "/b/node_modules/lp" "2.0.0").version ≠
      Ordering.gt) ∧
    (semverKey
      (ResolutionResult.mk "lp" "/b/node_modules/lp" "2.0.0").version).isSome =
      true :=
  claim1_single_batch_max ["lp"] ⟨[], []⟩
    [⟨"/a/p", some ⟨[("lp", "1.0.0")], [], []⟩, ["lp"]⟩,
     ⟨"/b/p", some ⟨[("lp", "2.0.0")], [], []⟩, ["lp"]⟩] "lp"
    ⟨"lp", "/b/node_modules/lp", "2.0.0"⟩
    ⟨"/a/p", some ⟨[("lp", "1.0.0")], [], []⟩, ["lp"]⟩
    ⟨"1.0.0", "/a/node_modules/lp"⟩
    (by decide) (by decide) (by decide) (by decide) (by decide) (by decide)
    (by decide)

theorem installAll_statuses_fst (cwd : String) (copyErr : String → Option String)
    (ctx : CopyCtx) (deps : List ResolutionResult) :
    (installAll cwd copyErr ctx deps).2.map (·.1) = deps.map (·.dependency) := by
  induction deps generalizing ctx with
  | nil => rfl
  | cons d ds ih =>
    show ((installAll cwd copyErr (processDep cwd copyErr ctx d).1 ds).2.map
      (·.1)).cons d.dependency = _
    rw [ih]
    rfl

/-! ## Claim C3, amended -/

/-- Claim C3, amended: when every requested dependency is already satisfied
locally — which is the state a successful first pass leaves behind — the
second pass performs no copy operations and neither rewrites nor changes the
local manifest; but it is not a no-op: the whole request list is handed to
the fallback package manager, and the run's exit code is then decided by
that subprocess. -/
theorem claim3_all_satisfied_run (cwd : String) (names : List String) (w : World)
    (hsat : ∀ s ∈ names,
      satisfiedLocally ⟨w.localDeps, w.localModules⟩ (parseDep s).1 = true) :
    copiesOf (fullPass cwd names w) = [] ∧
      (fullPass cwd names w).finalDeps = w.localDeps ∧
      (fullPass cwd names w).manifestWritten = false ∧
      (fullPass cwd names w).fallbackArgs = some names ∧
      (fullPass cwd names w).exitCode = (if w.fallbackExit == 0 then 0 else 1) := by
  have hd : depsToSearchOf names ⟨w.localDeps, w.localModules⟩ = [] := by
    rw [depsToSearchOf]
    rw [List.filter_eq_nil_iff]
    intro p hp
    rcases List.mem_map.mp (mem_jsMapFromPairs hp) with ⟨s, hsmem, hps⟩
    rw [← hps]
    simp [hsat s hsmem]
  have hres : getDependencyPaths names ⟨w.localDeps, w.localModules⟩ w.entries
      = [] := by
    rw [getDependencyPaths, hd]
    rfl
  have hfp : fullPass cwd names w =
      ⟨if w.fallbackExit == 0 then 0 else 1, some names, [], w.localDeps,
        w.localModules, false⟩ := by
    rw [fullPass, hres]
    rfl
  refine ⟨?_, ?_, ?_, ?_, ?_⟩ <;> rw [hfp]
  rfl

/-- Witness for the amended C3 theorem: a world with `lp` satisfied
locally. -/
theorem claim3_witness :
    copiesOf (fullPass "/proj" ["lp"]
        ⟨[("lp", "1.0.0")], ["lp"], [], fun _ => none, 0⟩) = [] ∧
      (fullPass "/proj" ["lp"]
        ⟨[("lp", "1.0.0")], ["lp"], [], fun _ => none, 0⟩).finalDeps =
        [("lp", "1.0.0")] ∧
      (fullPass "/proj" ["lp"]
        ⟨[("lp", "1.0.0")], ["lp"], [], fun _ => none, 0⟩).manifestWritten =
        false ∧
      (fullPass "/proj" ["lp"]
        ⟨[("lp", "1.0.0")], ["lp"], [], fun _ => none, 0⟩).fallbackArgs =
        some ["lp"] ∧
      (fullPass "/proj" ["lp"]
        ⟨[("lp", "1.0.0")], ["lp"], [], fun _ => none, 0⟩).exitCode =
        (if (0 : Nat) == 0 then 0 else 1) :=
  claim3_all_satisfied_run "/proj" ["lp"]
    ⟨[("lp", "1.0.0")], ["lp"], [], fun _ => none, 0⟩ (by decide)

/-! ## Claim C5, amended -/

/-- Claim C5, amended: the fallback exit-code policy of the run.  When some
dependencies were resolved locally (non-empty result set), the run exits 0
regardless of the fallback subprocess's exit code — its failure is only
logged; when none were resolved locally, the run exits 0 exactly when the
fallback subprocess exits 0, and non-zero otherwise. -/
theorem claim5_exit_code_policy (cwd : String) (names : List String) (w : World) :
    (getDependencyPaths names ⟨w.localDeps, w.localModules⟩ w.entries ≠ [] →
      (fullPass cwd names w).exitCode = 0) ∧
    (getDependencyPaths names ⟨w.localDeps, w.localModules⟩ w.entries = [] →
      ((fullPass cwd names w).exitCode = 0 ↔ w.fallbackExit = 0)) := by
  constructor
  · intro hne
    have hie : (getDependencyPaths names ⟨w.localDeps, w.localModules⟩
        w.entries).isEmpty = false := by
      cases h : getDependencyPaths names ⟨w.localDeps, w.localModules⟩ w.entries
      · exact absurd h hne
      · rfl
    rw [fullPass]
    rw [hie]
    rfl
  · intro hemp
    rw [fullPass, hemp]
    show (if w.fallbackExit == 0 then 0 else 1) = 0 ↔ w.fallbackExit = 0
    by_cases hfe : w.fallbackExit = 0
    · rw [hfe]
      simp
    · rw [if_neg (by simpa using hfe)]
      simp [hfe]

/-- Witness for the amended C5 theorem, using both parts: a run that
resolves `lp` locally exits 0 although the fallback would fail, and a run
that resolves nothing has its exit tied to the fallback's. -/
theorem claim5_witness :
    (fullPass "/proj" ["lp"] claim5World).exitCode = 0 ∧
      ((fullPass "/proj" ["zz"]
          ⟨[], [], [], fun _ => none, 1⟩).exitCode = 0 ↔
        (World.mk [] [] [] (fun _ => none) 1).fallbackExit = 0) :=
  ⟨(claim5_exit_code_policy "/proj" ["lp"] claim5World).1 (by decide),
   (claim5_exit_code_policy "/proj" ["zz"] ⟨[], [], [], fun _ => none, 1⟩).2
     (by decide)⟩

/-! ## Claim C4, amended -/

/-- Claim C4, amended: a requested dependency that is already satisfied
locally is excluded from the search (so it is never among the results and is
never copied by the installer), but it *does* appear in the argument list
handed to the fallback package manager: either the whole request list (when
nothing was resolved) or the computed remainder (which omits only resolved
names). -/
theorem claim4_satisfied_not_copied (cwd : String) (names : List String)
    (w : World) (s : String) (hs : s ∈ names)
    (hsat : satisfiedLocally ⟨w.localDeps, w.localModules⟩ (parseDep s).1 = true) :
    (parseDep s).1 ∉ copiesOf (fullPass cwd names w) ∧
      ∃ args, (fullPass cwd names w).fallbackArgs = some args ∧ s ∈ args := by
  have hnotin : (parseDep s).1 ∉
      (getDependencyPaths names ⟨w.localDeps, w.localModules⟩ w.entries).map
        (·.dependency) := by
    intro hmem
    rcases List.mem_map.mp hmem with ⟨r, hr, hrn⟩
    rw [getDependencyPaths] at hr
    by_cases hemp : (depsToSearchOf names ⟨w.localDeps, w.localModules⟩).isEmpty
        = true
    · rw [if_pos hemp] at hr
      simp at hr
    · rw [if_neg hemp] at hr
      rcases runBatches_fst_name hr with h | h
      · rcases List.mem_map.mp h with ⟨p, hp, hpn⟩
        rcases List.mem_filter.mp hp with ⟨-, hpred⟩
        rw [hpn, hrn] at hpred
        rw [hsat] at hpred
        simp at hpred
      · simp at h
  cases h : getDependencyPaths names ⟨w.localDeps, w.localModules⟩ w.entries with
  | nil =>
    have hfp : fullPass cwd names w =
        ⟨if w.fallbackExit == 0 then 0 else 1, some names, [], w.localDeps,
          w.localModules, false⟩ := by
      rw [fullPass, h]
      rfl
    rw [hfp]
    exact ⟨by simp [copiesOf], names, rfl, hs⟩
  | cons r rs =>
    rw [h] at hnotin
    have hie : ((r :: rs : List ResolutionResult)).isEmpty = false := rfl
    have hstat : (fullPass cwd names w).statuses =
        (installAll cwd w.copyErr ⟨w.localModules, w.localDeps⟩ (r :: rs)).2 := by
      rw [fullPass, h, hie]
      rfl
    have hmiss : (fullPass cwd names w).fallbackArgs =
        (if (names.filter fun d =>
            !(((r :: rs).map (·.dependency)).contains (parseDep d).1)).isEmpty
          then none
          else some (names.filter fun d =>
            !(((r :: rs).map (·.dependency)).contains (parseDep d).1))) := by
      rw [fullPass, h, hie]
      rfl
    constructor
    · intro hcopy
      rcases List.mem_map.mp hcopy with ⟨p, hpmem, hpn⟩
      rcases List.mem_filter.mp hpmem with ⟨hpstat, -⟩
      rw [hstat] at hpstat
      apply hnotin
      rw [← hpn, ← installAll_statuses_fst cwd w.copyErr
        ⟨w.localModules, w.localDeps⟩ (r :: rs)]
      exact List.mem_map.mpr ⟨p, hpstat, rfl⟩
    · have hcontains : (((r :: rs).map (·.dependency)).contains (parseDep s).1)
          = false := by
        simpa using hnotin
      have hsmem : s ∈ names.filter fun d =>
          !(((r :: rs).map (·.dependency)).contains (parseDep d).1) :=
        List.mem_filter.mpr ⟨hs, by rw [hcontains]; rfl⟩
      have hne : (names.filter fun d =>
          !(((r :: rs).map (·.dependency)).contains (parseDep d).1)).isEmpty
          = false := by
        cases hfe : names.filter fun d =>
            !(((r :: rs).map (·.dependency)).contains (parseDep d).1)
        · rw [hfe] at hsmem
          simp at hsmem
        · rfl
      refine ⟨names.filter fun d =>
        !(((r :: rs).map (·.dependency)).contains (parseDep d).1), ?_, hsmem⟩
      rw [hmiss, hne]
      rfl

/-- Witness for the amended C4 theorem: `a` is satisfied, `b` resolvable —
`a` is not copied and is passed to the fallback. -/
theorem claim4_witness :
    (parseDep "a").1 ∉ copiesOf (fullPass "/proj" ["a", "b"] claim4World) ∧
      ∃ args, (fullPass "/proj" ["a", "b"] claim4World).fallbackArgs = some args ∧
        "a" ∈ args :=
  claim4_satisfied_not_copied "/proj" ["a", "b"] claim4World "a" (by decide)
    (by decide)

/-! ## Claim C1, counterexample -/

/-- Claim C1, counterexample: with 51 crawled manifests, the unconstrained
request `lp` resolves to version 1.0.0 from the first batch, even though the
crawl also contains a candidate at the strictly greater version 2.0.0 in the
second batch — the batch loop breaks at the first batch that yields any
result, so the selection is not the maximum over all candidates of the crawl
and depends on discovery order. -/
theorem claim1_counterexample :
    getDependencyPaths ["lp"] ⟨[], []⟩ claim1Entries =
        [⟨"lp", "/a/node_modules/lp", "1.0.0"⟩] ∧
      claim1LaterEntry ∈ claim1Entries ∧
      entryCandidate claim1LaterEntry "lp" = some ⟨"2.0.0", "/b/node_modules/lp"⟩ ∧
      semverCompare "2.0.0" "1.0.0" = .gt := by
  exact ⟨by decide, by decide, by decide, by decide⟩

/-! ## Claim C3, counterexample -/

/-- Claim C3, counterexample: after a first pass installs `lp` from the
cache, running the identical pass again performs no copies and leaves the
manifest unchanged, but it hands the already-satisfied dependency to the
fallback package manager (the empty-results path of `main`), and the run
exits 1 when that subprocess exits non-zero — so the second run is not free
of fallback/fatal work, contradicting the claim's propagation clause. -/
theorem claim3_counterexample :
    copiesOf (fullPass "/proj" ["lp"] claim3World) = ["lp"] ∧
      (fullPass "/proj" ["lp"] claim3World).exitCode = 0 ∧
      (fullPass "/proj" ["lp"]
        (afterPass claim3World (fullPass "/proj" ["lp"] claim3World))).fallbackArgs =
        some ["lp"] ∧
      (fullPass "/proj" ["lp"]
        (afterPass claim3World (fullPass "/proj" ["lp"] claim3World))).exitCode = 1 := by
  exact ⟨by decide, by decide, by decide, by decide⟩

/-! ## Claim C4, counterexample -/

/-- Claim C4, counterexample: `a` is satisfied locally (in the local
manifest and on disk) and is indeed excluded from the search, but because
the remainder is computed as the requested specs minus the resolved set, `a`
*does* appear in the remainder handed to the fallback package manager. -/
theorem claim4_counterexample :
    satisfiedLocally ⟨claim4World.localDeps, claim4World.localModules⟩ "a" = true ∧
      (fullPass "/proj" ["a", "b"] claim4World).fallbackArgs = some ["a"] := by
  exact ⟨by decide, by decide⟩

/-! ## Claim C5, counterexample -/

/-- Claim C5, counterexample: `lp` is resolved locally and `zz` goes to the
fallback package manager, which exits with the non-zero code 1 — yet the
overall run completes with exit code 0, because a fallback failure inside
`copyDependenciesToLocal` is only logged. -/
theorem claim5_counterexample :
    claim5World.fallbackExit = 1 ∧
      (fullPass "/proj" ["lp", "zz"] claim5World).fallbackArgs = some ["zz"] ∧
      (fullPass "/proj" ["lp", "zz"] claim5World).exitCode = 0 := by
  exact ⟨by decide, by decide, by decide⟩

/-! ## Claim C7, counterexample -/

/-- Claim C7, counterexample: a constrained request matched by two manifests
of the same batch yields two ResolutionResults with the same dependency
name, so names in the final result set are not unique. -/
theorem claim7_counterexample :
    getDependencyPaths ["react@17.0.2"] ⟨[], []⟩ claim7Entries =
        [⟨"react", "/a/node_modules/react", "17.0.2"⟩,
         ⟨"react", "/b/node_modules/react", "17.0.2"⟩] ∧
      ¬ ((getDependencyPaths ["react@17.0.2"] ⟨[], []⟩ claim7Entries).map
          (·.dependency)).Nodup := by
  exact ⟨by decide, by decide⟩

/-! ## Claim C9, counterexample -/

/-- Claim C9, counterexample: for the scoped identifier
`@scope/pkg@1.0.0` the parser yields the empty name but takes only the
segment between the first and second `@` as the version constraint, not the
full remainder of the identifier after the first `@`. -/
theorem claim9_counterexample :
    parseDep "@scope/pkg@1.0.0" = ("", some "scope/pkg") ∧
      parseDep "@scope/pkg@1.0.0" ≠ ("", some "scope/pkg@1.0.0") := by
  exact ⟨by decide, by decide⟩

/-! ## Claim C2 -/

/-- Claim C2: for a requested spec carrying an explicit (truthy) version
constraint, a discovered Candidate — a manifest whose merged mapping
declares a truthy version `fv` for the name and whose sibling
`node_modules/<name>` directory exists — is accepted if and only if `fv`
is exactly the constraint string: the matching loop emits the match
precisely when `fv = c`, with the version recorded verbatim (no
range-marker stripping is applied in this equality check). -/
theorem claim2_constrained_exact_match (e : Entry) (m : Manifest)
    (hn : hasNestedNodeModules e.path = false) (hc : e.content = some m)
    (n c fv : String) (hcne : c ≠ "")
    (hfv : lookupJs (mergedDeps m) n = some fv) (hfvne : fv ≠ "")
    (hinst : e.installed.contains n = true) (seen : SeenMap) :
    (processEntry [(n, some c)] e seen).1 =
      if fv = c then [⟨n, dirname e.path ++ "/node_modules/" ++ n, fv⟩]
      else [] := by
  have hfvt : jsTruthy (some fv) = true := by
    simp [jsTruthy, hfvne]
  have hct : jsTruthy (some c) = true := by
    simp [jsTruthy, hcne]
  rw [processEntry, if_neg (by rw [hn]; exact Bool.false_ne_true), hc]
  show (matchSpecs (dirname e.path) (mergedDeps m) e.installed
      [(n, some c)] seen).1 = _
  rw [matchSpecs, hfv, hfvt, hct]
  by_cases h : fv = c
  · subst h
    have hmem : n ∈ e.installed := by simpa using hinst
    simp [hinst, hfvt, hmem]
  · have : (some fv == some c) = false := by
      simpa using h
    simp [this, matchSpecs, h]

/-- Witness for the C2 theorem: against a manifest declaring
`left-pad: "^1.3.0"` with an existing install directory, the constrained
request `left-pad@1.3.0` is rejected (stripping does not apply to the
equality check) while `left-pad@^1.3.0` is accepted verbatim. -/
theorem claim2_witness :
    (processEntry [("left-pad", some "1.3.0")]
        ⟨"/a/p", some ⟨[("left-pad", "^1.3.0")], [], []⟩, ["left-pad"]⟩ []).1 =
        [] ∧
      (processEntry [("left-pad", some "^1.3.0")]
        ⟨"/a/p", some ⟨[("left-pad", "^1.3.0")], [], []⟩, ["left-pad"]⟩ []).1 =
        [⟨"left-pad", "/a/node_modules/left-pad", "^1.3.0"⟩] := by
  constructor
  · rw [claim2_constrained_exact_match
      ⟨"/a/p", some ⟨[("left-pad", "^1.3.0")], [], []⟩, ["left-pad"]⟩
      ⟨[("left-pad", "^1.3.0")], [], []⟩ (by decide) rfl
      "left-pad" "1.3.0" "^1.3.0" (by decide) (by decide) (by decide)
      (by decide) []]
    decide
  · rw [claim2_constrained_exact_match
      ⟨"/a/p", some ⟨[("left-pad", "^1.3.0")], [], []⟩, ["left-pad"]⟩
      ⟨[("left-pad", "^1.3.0")], [], []⟩ (by decide) rfl
      "left-pad" "^1.3.0" "^1.3.0" (by decide) (by decide) (by decide)
      (by decide) []]
    decide

theorem mem_mergedDeps {m : Manifest} {p : String × String}
    (h : p ∈ mergedDeps m) :
    p ∈ m.dependencies ∨ p ∈ m.devDependencies ∨ p ∈ m.peerDependencies := by
  rcases mem_foldl_jsSet h with h | h
  · rcases mem_foldl_jsSet h with h | h
    · rcases mem_foldl_jsSet h with h | h
      · simp at h
      · exact Or.inl h
    · exact Or.inr (Or.inl h)
  · exact Or.inr (Or.inr h)

/-! ## Claim C9 -/

/-- Claim C9, amended: for a requested identifier beginning with `@` (a
scoped package), the parser produces a spec whose name is the empty string
and whose version constraint is the segment between the first and second
`@`; because the name is empty, the matcher emits no candidate and touches
no accumulator against any manifest whose declared dependency names are all
non-empty, so such a request can never be matched by name. -/
theorem claim9_scoped_name_empty (s : String) (t : List Char)
    (hs : s.toList = '@' :: t) (e : Entry) (m : Manifest)
    (hc : e.content = some m)
    (hkeys : ∀ p ∈ m.dependencies ++ m.devDependencies ++ m.peerDependencies,
      p.1 ≠ "")
    (seen : SeenMap) :
    (parseDep s).1 = "" ∧ processEntry [parseDep s] e seen = ([], seen) := by
  have hsplit : splitOnChar '@' s.toList = [] :: splitOnChar '@' t := by
    rw [hs, splitOnChar]
    simp
  have hname : (parseDep s).1 = "" := by
    show ((splitOnChar '@' s.toList).map (fun cs => String.mk cs)).headD "" = ""
    rw [hsplit]
    rfl
  refine ⟨hname, ?_⟩
  rw [processEntry]
  by_cases hn : hasNestedNodeModules e.path
  · rw [if_pos hn]
  · rw [if_neg hn, hc]
    have hfv : lookupJs (mergedDeps m) (parseDep s).1 = none := by
      rw [hname]
      exact lookupJs_eq_none (fun p hp =>
        hkeys p (by
          rcases mem_mergedDeps hp with h | h | h
          · exact List.mem_append_left _ (List.mem_append_left _ h)
          · exact List.mem_append_left _ (List.mem_append_right _ h)
          · exact List.mem_append_right _ h))
    show matchSpecs (dirname e.path) (mergedDeps m) e.installed
      [((parseDep s).1, (parseDep s).2)] seen = ([], seen)
    rw [matchSpecs, hfv]
    show (if jsTruthy none && _ then _ else
      matchSpecs (dirname e.path) (mergedDeps m) e.installed [] seen) = ([], seen)
    rw [matchSpecs]
    simp only [jsTruthy, Bool.false_and, Bool.false_eq_true, if_false]
    rfl

/-- Witness for the amended C9 theorem: `@scope/pkg` parses to the empty
name and matches nothing, even against a manifest declaring `scope/pkg`. -/
theorem claim9_witness :
    (parseDep "@scope/pkg").1 = "" ∧
      processEntry [parseDep "@scope/pkg"]
        ⟨"/a/p", some ⟨[("scope/pkg", "1.0.0")], [], []⟩, ["scope/pkg"]⟩ [] =
        ([], []) :=
  claim9_scoped_name_empty "@scope/pkg" "scope/pkg".toList (by decide)
    ⟨"/a/p", some ⟨[("scope/pkg", "1.0.0")], [], []⟩, ["scope/pkg"]⟩
    ⟨[("scope/pkg", "1.0.0")], [], []⟩ rfl (by decide) []

/-! ## Claims C8 and C10 -/

/-- Claim C8: when the copy of a resolved dependency fails with the
cross-device code `EXDEV` (the dependency is absent locally and the source
passes the containment guard, so the copy is attempted), the installer
treats the failure as a soft success — the dependency is reported as already
installed, not as a hard failure — the installer state is untouched, and the
run continues: the remaining dependencies are processed exactly as they
would have been without this dependency. -/
theorem claim8_exdev_soft_success (cwd : String) (copyErr : String → Option String)
    (ctx : CopyCtx) (d : ResolutionResult) (rest : List ResolutionResult)
    (allDeps : List String)
    (hnotin : ctx.modules.contains d.dependency = false)
    (hsafe : safeSourceLocation (cwd ++ "/node_modules/" ++ d.dependency) d.path = true)
    (hex : copyErr d.dependency = some "EXDEV") :
    (copyDependenciesToLocal cwd copyErr (d :: rest) allDeps ctx).statuses =
        (d.dependency, InstallStatus.softAlreadyInstalled) ::
          (copyDependenciesToLocal cwd copyErr rest allDeps ctx).statuses ∧
      (copyDependenciesToLocal cwd copyErr (d :: rest) allDeps ctx).finalCtx =
        (copyDependenciesToLocal cwd copyErr rest allDeps ctx).finalCtx := by
  have hd : processDep cwd copyErr ctx d = (ctx, .softAlreadyInstalled) := by
    rw [processDep]
    simp only [hnotin, hsafe, hex]
    rfl
  constructor
  · show (installAll cwd copyErr ctx (d :: rest)).2 = _
    rw [installAll, hd]
    rfl
  · show (installAll cwd copyErr ctx (d :: rest)).1 = _
    rw [installAll, hd]
    rfl

/-- Witness for the C8 theorem: a two-dependency run in which the first copy
fails with `EXDEV`; it is reported as already installed and the second
dependency is still processed (and installed). -/
theorem claim8_witness :
    (copyDependenciesToLocal "/proj"
        (fun n => if n = "x" then some "EXDEV" else none)
        [⟨"x", "/cache/node_modules/x", "1.0.0"⟩,
         ⟨"y", "/cache/node_modules/y", "2.0.0"⟩]
        ["x", "y"] ⟨[], []⟩).statuses =
        ("x", InstallStatus.softAlreadyInstalled) ::
          (copyDependenciesToLocal "/proj"
            (fun n => if n = "x" then some "EXDEV" else none)
            [⟨"y", "/cache/node_modules/y", "2.0.0"⟩]
            ["x", "y"] ⟨[], []⟩).statuses ∧
      (copyDependenciesToLocal "/proj"
        (fun n => if n = "x" then some "EXDEV" else none)
        [⟨"x", "/cache/node_modules/x", "1.0.0"⟩,
         ⟨"y", "/cache/node_modules/y", "2.0.0"⟩]
        ["x", "y"] ⟨[], []⟩).finalCtx =
        (copyDependenciesToLocal "/proj"
          (fun n => if n = "x" then some "EXDEV" else none)
          [⟨"y", "/cache/node_modules/y", "2.0.0"⟩]
          ["x", "y"] ⟨[], []⟩).finalCtx :=
  claim8_exdev_soft_success "/proj"
    (fun n => if n = "x" then some "EXDEV" else none)
    ⟨[], []⟩ ⟨"x", "/cache/node_modules/x", "1.0.0"⟩
    [⟨"y", "/cache/node_modules/y", "2.0.0"⟩] ["x", "y"]
    (by decide) (by decide) (by decide)

/-- Claim C10: on an `EXDEV` soft success the installer leaves the local
manifest's dependency mapping untouched — the manifest entry is only written
after a successful copy — even though the dependency is reported as
installed; by contrast, the very same dependency with a successful copy does
gain a name-to-version entry. -/
theorem claim10_exdev_manifest_frame (cwd : String) (copyErr : String → Option String)
    (ctx : CopyCtx) (d : ResolutionResult)
    (hnotin : ctx.modules.contains d.dependency = false)
    (hsafe : safeSourceLocation (cwd ++ "/node_modules/" ++ d.dependency) d.path = true)
    (hex : copyErr d.dependency = some "EXDEV") :
    (processDep cwd copyErr ctx d).1.pkgDeps = ctx.pkgDeps ∧
      (processDep cwd copyErr ctx d).2 = InstallStatus.softAlreadyInstalled ∧
      lookupJs (processDep cwd (fun _ => none) ctx d).1.pkgDeps d.dependency =
        some d.version := by
  have hd : processDep cwd copyErr ctx d = (ctx, .softAlreadyInstalled) := by
    rw [processDep]
    simp only [hnotin, hsafe, hex]
    rfl
  have hd' : processDep cwd (fun _ => none) ctx d =
      ({ modules := ctx.modules ++ [d.dependency],
         pkgDeps := jsSet ctx.pkgDeps d.dependency d.version }, .installed) := by
    rw [processDep]
    simp only [hnotin, hsafe]
    rfl
  refine ⟨by rw [hd], by rw [hd], ?_⟩
  rw [hd']
  show lookupJs (jsSet ctx.pkgDeps d.dependency d.version) d.dependency = _
  rw [lookupJs_jsSet, if_pos rfl]

/-- Witness for the C10 theorem at a concrete installer state. -/
theorem claim10_witness :
    (processDep "/proj" (fun _ => some "EXDEV") ⟨["z"], [("z", "0.1.0")]⟩
        ⟨"x", "/cache/node_modules/x", "1.0.0"⟩).1.pkgDeps = [("z", "0.1.0")] ∧
      (processDep "/proj" (fun _ => some "EXDEV") ⟨["z"], [("z", "0.1.0")]⟩
        ⟨"x", "/cache/node_modules/x", "1.0.0"⟩).2 =
        InstallStatus.softAlreadyInstalled ∧
      lookupJs (processDep "/proj" (fun _ => none) ⟨["z"], [("z", "0.1.0")]⟩
        ⟨"x", "/cache/node_modules/x", "1.0.0"⟩).1.pkgDeps "x" = some "1.0.0" :=
  claim10_exdev_manifest_frame "/proj" (fun _ => some "EXDEV")
    ⟨["z"], [("z", "0.1.0")]⟩ ⟨"x", "/cache/node_modules/x", "1.0.0"⟩
    (by decide) (by decide) (by decide)

/-- Witness for the amended C6 theorem at a concrete manifest. -/
theorem claim6_witness :
    lookupJs (mergedDeps ⟨[("a", "1.0.0"), ("b", "0.1.0")], [("a", "2.0.0")],
        [("c", "3.0.0")]⟩) "a" =
      (lookupJs ([("c", "3.0.0")] : List (String × String)) "a").orElse
        (fun _ => (lookupJs ([("a", "2.0.0")] : List (String × String)) "a").orElse
          (fun _ => lookupJs ([("a", "1.0.0"), ("b", "0.1.0")] :
            List (String × String)) "a")) :=
  claim6_merge_last_group_wins
    ⟨[("a", "1.0.0"), ("b", "0.1.0")], [("a", "2.0.0")], [("c", "3.0.0")]⟩ "a"
    (by decide) (by decide) (by decide)

end LPM
